import Mathlib

/-!
# Catalog service: route matching and listing queries

A shallow embedding of `services/catalog/cmd/main.go`.

* Strings of the router are lists of characters (`Str`); the strings of the
  query builder are `String`s.
* `regexp` is modelled on a fragment of its syntax: literal characters, `.`,
  `^`, `$`, top-level alternation and the group `([^/]+)` that `addRoute`
  inserts, with the leftmost-first (backtracking) matching of the package.
  `compile` is `none` outside this fragment, and nothing is stated about such
  expressions: `regexp.MustCompile` accepts some of them (escapes, classes,
  repetition, other groups) and panics on others.  The general statements
  are about templates without metacharacters outside their placeholders,
  which are inside the fragment.
* The route table, a package variable in the source, is passed explicitly.
* The storage is a collaborator: the rows of `products`, whether the
  connection answers, and the collation its `LIKE` compares characters by.
-/

namespace Catalog

abbrev Str := List Char

/-- The character class `\w` of the `regexp` package: `[0-9A-Za-z_]`. -/
def isWordChar (c : Char) : Bool :=
  c.isAlphanum || c == '_'

/-- Characters with a special meaning in the `regexp` syntax. -/
def isMetaChar (c : Char) : Bool :=
  c ∈ ['\\', '.', '+', '*', '?', '(', ')', '|', '[', ']', '{', '}', '^', '$']

/-- One match attempt of `\{(\w+)\}` at the start of the input: the captured
name when the input starts with `{`, a non-empty run of word characters and `}`. -/
def placeholderAt : Str → Option Str
  | '{' :: t =>
    match t.takeWhile isWordChar, t.dropWhile isWordChar with
    | c :: name, '}' :: _ => some (c :: name)
    | _, _ => none
  | _ => none

/-- The text every placeholder is replaced with. -/
def groupText : Str := "([^/]+)".toList

/-- `re.ReplaceAllStringFunc(path, f)` for `re = \{(\w+)\}` together with the
side effect of the callback `f`: leftmost non-overlapping matches are replaced
by `([^/]+)` and the captured names are appended in order.  `skip` counts the
characters of the current match that are still to be passed over. -/
def replaceAux : Str → Nat → Str × List Str
  | [], _ => ([], [])
  | _ :: cs, skip + 1 => replaceAux cs skip
  | c :: cs, 0 =>
    match placeholderAt (c :: cs) with
    | some name =>
      let r := replaceAux cs (name.length + 1)
      (groupText ++ r.1, name :: r.2)
    | none =>
      let r := replaceAux cs 0
      (c :: r.1, r.2)

def replacePlaceholders (path : Str) : Str × List Str := replaceAux path 0

/-- The atoms of the modelled fragment of the `regexp` syntax. -/
inductive Atom where
  | chr (c : Char)
  | dot
  | bol
  | eol
  | cap
  deriving DecidableEq

/-- A compiled expression of the fragment: alternatives, tried in order. -/
structure Regexp where
  alts : List (List Atom)
  deriving DecidableEq

def consAtom (a : Atom) : List (List Atom) → List (List Atom)
  | [] => [[a]]
  | alt :: alts => (a :: alt) :: alts

/-- Parser of the modelled fragment of the `regexp` syntax: literal characters,
`.`, `^`, `$`, top-level `|`, and the group `([^/]+)`.  `none` means that the
expression is outside the fragment, not that it is invalid: every other use
of a metacharacter is left unmodelled, whether `regexp` accepts it or not. -/
def parseAlts : Str → Option (List (List Atom))
  | [] => some [[]]
  | '(' :: '[' :: '^' :: '/' :: ']' :: '+' :: ')' :: r => (parseAlts r).map (consAtom .cap)
  | '|' :: r => (parseAlts r).map ([] :: ·)
  | '.' :: r => (parseAlts r).map (consAtom .dot)
  | '^' :: r => (parseAlts r).map (consAtom .bol)
  | '$' :: r => (parseAlts r).map (consAtom .eol)
  | c :: r => if isMetaChar c then none else (parseAlts r).map (consAtom (.chr c))

/-- `regexp.MustCompile(expr)` on the modelled fragment; `none` outside it. -/
def compile (expr : Str) : Option Regexp := (parseAlts expr).map Regexp.mk

/-- The first success of `f k` for `k` from `n` down to 1. -/
def firstFrom {α : Type} (f : Nat → Option α) : Nat → Option α
  | 0 => none
  | k + 1 =>
    match f (k + 1) with
    | some a => some a
    | none => firstFrom f k

/-- Backtracking match of a sequence of atoms at the start of the input; the
flag tells whether the input is the whole text, which is where `^` holds.
The group takes the longest run without `/` first and gives back one
character at a time.  Result: the unconsumed rest and the texts of the
groups. -/
def matchAtoms : List Atom → Bool → Str → Option (Str × List Str)
  | [], _, s => some (s, [])
  | .chr c :: r, _, x :: xs => if x = c then matchAtoms r false xs else none
  | .chr _ :: _, _, [] => none
  | .dot :: r, _, x :: xs => if x = '\n' then none else matchAtoms r false xs
  | .dot :: _, _, [] => none
  | .bol :: r, b, s => if b then matchAtoms r b s else none
  | .eol :: r, b, s => if s = [] then matchAtoms r b s else none
  | .cap :: r, _, s =>
    firstFrom
      (fun k => (matchAtoms r false (s.drop k)).map fun res => (res.1, s.take k :: res.2))
      (s.takeWhile (fun c => c != '/')).length

def countCaps (as : List Atom) : Nat := as.count .cap

/-- Alternatives tried in order at one start position; the groups of the
alternatives that did not take part are empty. -/
def matchAlts : List (List Atom) → Nat → Bool → Str → Option (Str × List Str)
  | [], _, _, _ => none
  | alt :: alts, before, b, s =>
    match matchAtoms alt b s with
    | some res =>
      some (res.1, List.replicate before [] ++ res.2 ++
        List.replicate ((alts.map countCaps).sum) [])
    | none => matchAlts alts (before + countCaps alt) b s

/-- The match at one start position, as a submatch list: the matched text,
then the groups. -/
def matchHere (re : Regexp) (b : Bool) (s : Str) : Option (List Str) :=
  (matchAlts re.alts 0 b s).map fun res => s.take (s.length - res.1.length) :: res.2

/-- The start positions from left to right. -/
def searchFrom (re : Regexp) : Bool → Str → Option (List Str)
  | b, [] => matchHere re b []
  | b, c :: t =>
    match matchHere re b (c :: t) with
    | some m => some m
    | none => searchFrom re false t

/-- `re.FindStringSubmatch(s)`: leftmost match, `none` for `nil`. -/
def findStringSubmatch (re : Regexp) (s : Str) : Option (List Str) := searchFrom re true s


abbrev Vars := List (Str × Str)

/-- The assignment `vars[name] = v` on a map kept as a list of entries with
distinct keys. -/
def setVar : Vars → Str → Str → Vars
  | [], k, v => [(k, v)]
  | (k0, v0) :: r, k, v => if k0 = k then (k, v) :: r else (k0, v0) :: setVar r k v

def getVar : Vars → Str → Option Str
  | [], _ => none
  | (k0, v0) :: r, k => if k0 = k then some v0 else getVar r k

def entriesFor (vars : Vars) (k : Str) : Nat := (vars.filter fun e => e.1 = k).length

structure routeEntry (H : Type) where
  method : Str
  pattern : Regexp
  params : List Str
  handler : H

/-- The function `addRoute`, on an explicit route table; `none` when the
pattern is outside the modelled fragment of `regexp`, about which the model
says nothing. -/
def addRoute {H : Type} (routeTable : List (routeEntry H)) (method path : Str) (h : H) :
    Option (List (routeEntry H)) :=
  let r := replacePlaceholders path
  (compile ('^' :: r.1 ++ ['$'])).map fun re =>
    routeTable ++ [{ method := method, pattern := re, params := r.2, handler := h }]

inductive Outcome (H : Type) where
  | handled (h : H) (vars : Vars)
  | notFound
  | indexPanic
  deriving DecidableEq

/-- The loop `for i, name := range rt.params { vars[name] = m[i+1] }`; `none`
when `m[i+1]` is out of range. -/
def fillVars : List Str → Nat → List Str → Vars → Option Vars
  | [], _, _, vars => some vars
  | name :: rest, i, m, vars =>
    match m.get? (i + 1) with
    | none => none
    | some v => fillVars rest (i + 1) m (setVar vars name v)

/-- The function `dispatch`, on the route table, `r.Method` and `r.URL.Path`. -/
def dispatch {H : Type} : List (routeEntry H) → Str → Str → Outcome H
  | [], _, _ => .notFound
  | rt :: rest, method, path =>
    if rt.method ≠ method then dispatch rest method path
    else
      match findStringSubmatch rt.pattern path with
      | none => dispatch rest method path
      | some m =>
        match fillVars rt.params 0 m [] with
        | some vars => .handled rt.handler vars
        | none => .indexPanic

/-- `strings.TrimRight(s, cutset)`. -/
def trimRight (s cutset : Str) : Str :=
  (s.reverse.dropWhile fun c => c ∈ cutset).reverse

/-- The rewriting of `r.URL.Path` in the server's handler function. -/
def normalizePath (path : Str) : Str :=
  let p := trimRight path ['/']
  if p = [] then ['/'] else p

/-- The handler function passed to `http.ListenAndServe`, after the header is set. -/
def serve {H : Type} (routeTable : List (routeEntry H)) (method path : Str) : Outcome H :=
  dispatch routeTable method (normalizePath path)

inductive Handler where
  | healthHandler
  | listProductsHandler
  | getProductHandler
  | listCategoriesHandler
  deriving DecidableEq

/-- A sequence of `addRoute` calls, as `main` makes them. -/
def registerAll {H : Type} : List (Str × Str × H) → List (routeEntry H) →
    Option (List (routeEntry H))
  | [], t => some t
  | (method, path, h) :: rest, t => (addRoute t method path h).bind (registerAll rest)

/-- The arguments of the four `addRoute` calls of `main`. -/
def mainRouteList : List (Str × Str × Handler) :=
  [("GET".toList, "/health".toList, .healthHandler),
   ("GET".toList, "/products".toList, .listProductsHandler),
   ("GET".toList, "/products/{id}".toList, .getProductHandler),
   ("GET".toList, "/categories".toList, .listCategoriesHandler)]

/-- The four `addRoute` calls of `main`. -/
def mainRoutes : Option (List (routeEntry Handler)) := registerAll mainRouteList []

/-- `strings.Split(s, "/")`. -/
def segments : Str → List Str
  | [] => [[]]
  | c :: cs =>
    if c = '/' then [] :: segments cs
    else
      match segments cs with
      | [] => [[c]]
      | s :: ss => (c :: s) :: ss

/-- A template segment without a placeholder. -/
def isLiteralSegment (seg : Str) : Bool := (replacePlaceholders seg).2.isEmpty

/-- The path differs from the template in the number of segments or in a
literal segment. -/
def pathDiffers (template path : Str) : Bool :=
  (segments template).length != (segments path).length ||
  ((segments template).zip (segments path)).any fun p => isLiteralSegment p.1 && p.1 != p.2

/-- A template as a sequence of literal characters and placeholders. -/
inductive Item where
  | lit (c : Char)
  | ph (name : Str)
  deriving DecidableEq

def render : List Item → Str
  | [] => []
  | .lit c :: r => c :: render r
  | .ph name :: r => '{' :: (name ++ '}' :: render r)

def names : List Item → List Str
  | [] => []
  | .lit _ :: r => names r
  | .ph name :: r => name :: names r

/-- The path obtained by replacing the placeholders, in order, by `vals`. -/
def subst : List Item → List Str → Str
  | [], _ => []
  | .lit c :: r, vs => c :: subst r vs
  | .ph _ :: r, [] => subst r []
  | .ph _ :: r, v :: vs => v ++ subst r vs

def plainItem : Item → Bool
  | .lit c => !isMetaChar c
  | .ph name => !name.isEmpty && name.all isWordChar

/-- No regexp metacharacter outside the placeholders. -/
def plainTemplate (items : List Item) : Bool := items.all plainItem

/-- Every placeholder ends the template or is followed by `/`. -/
def separated : List Item → Bool
  | [] => true
  | .lit _ :: r => separated r
  | .ph _ :: [] => true
  | .ph _ :: .lit c :: r => c == '/' && separated r
  | .ph _ :: .ph _ :: _ => false

def goodValue (v : Str) : Bool := !v.isEmpty && v.all fun c => c != '/'

def atomsOf : List Item → List Atom
  | [] => []
  | .lit c :: r => .chr c :: atomsOf r
  | .ph _ :: r => .cap :: atomsOf r

def patternOf : List Item → Str
  | [] => []
  | .lit c :: r => c :: patternOf r
  | .ph _ :: r => groupText ++ patternOf r


/-- The paths a template stands for: its placeholders replaced by non-empty
strings without `/`. -/
def isInstance (items : List Item) (path : Str) : Prop :=
  ∃ vals : List Str, vals.length = (names items).length ∧
    (∀ v ∈ vals, goodValue v = true) ∧ path = subst items vals

/-- The entry `addRoute` appends for a template without metacharacters. -/
def templateEntry {H : Type} (r : Str × List Item × H) : routeEntry H :=
  { method := r.1, pattern := ⟨[.bol :: (atomsOf r.2.1 ++ [.eol])]⟩,
    params := names r.2.1, handler := r.2.2 }

def renderRoute {H : Type} (r : Str × List Item × H) : Str × Str × H :=
  (r.1, render r.2.1, r.2.2)

/-- An entry is selected by a request: the two tests of the loop of `dispatch`. -/
def selects {H : Type} (e : routeEntry H) (method path : Str) : Prop :=
  e.method = method ∧ (findStringSubmatch e.pattern path).isSome = true

/-- The normalization as the specification words it: one trailing `/` is
removed, and an empty result becomes `/`. -/
def specNormalizePath (path : Str) : Str :=
  let p := if path.getLast? = some '/' then path.dropLast else path
  if p = [] then ['/'] else p

/-- A literal text as template items. -/
def litItems (s : String) : List Item := s.toList.map .lit

/-- The template `/products/{id}` of `main`. -/
def productTemplate : List Item := litItems "/products/" ++ [.ph "id".toList]

/-- A template with a placeholder between two literal segments,
`/products/{id}/reviews`. -/
def reviewsTemplate : List Item :=
  litItems "/products/" ++ [.ph "id".toList] ++ litItems "/reviews"


/-- The struct `Product`. -/
structure Product where
  ID : Int
  Name : String
  Description : String
  Price : Float
  Category : String
  Brand : String
  Stock : Int
  ImageURL : String
  CreatedAt : String

/-- An error value of `database/sql`: `sql.ErrNoRows` or any other error. -/
inductive DBError where
  | errNoRows
  | other (msg : String)
  deriving DecidableEq

/-- The value handed to `writeJSON`. -/
inductive Body where
  | products (ps : List Product)
  | product (p : Product)
  | message (fields : List (String × String))

/-- The call `writeJSON(w, status, v)`. -/
structure Response where
  status : Nat
  body : Body

def writeJSON (status : Nat) (v : Body) : Response := { status := status, body := v }

def selectProducts : String :=
  "SELECT id,name,description,price,category,brand,stock,image_url,created_at FROM products WHERE 1=1"

/-- The query text and the bound arguments `listProductsHandler` builds from
`q.Get("category")` and `q.Get("search")`. -/
def buildListQuery (c s : String) : String × List String :=
  let query := selectProducts
  let args : List String := []
  let qa := if c ≠ "" then (query ++ " AND category=?", args ++ [c]) else (query, args)
  let qa :=
    if s ≠ "" then
      let p := "%" ++ s ++ "%"
      (qa.1 ++ " AND (name LIKE ? OR description LIKE ? OR brand LIKE ?)", qa.2 ++ [p, p, p])
    else qa
  (qa.1 ++ " LIMIT 50", qa.2)

/-- The four texts of the listing query, by the presence of the two filters. -/
def fixedQueryText (hasCategory hasSearch : Bool) : String :=
  match hasCategory, hasSearch with
  | false, false =>
    "SELECT id,name,description,price,category,brand,stock,image_url,created_at FROM products WHERE 1=1 LIMIT 50"
  | true, false =>
    "SELECT id,name,description,price,category,brand,stock,image_url,created_at FROM products WHERE 1=1 AND category=? LIMIT 50"
  | false, true =>
    "SELECT id,name,description,price,category,brand,stock,image_url,created_at FROM products WHERE 1=1 AND (name LIKE ? OR description LIKE ? OR brand LIKE ?) LIMIT 50"
  | true, true =>
    "SELECT id,name,description,price,category,brand,stock,image_url,created_at FROM products WHERE 1=1 AND category=? AND (name LIKE ? OR description LIKE ? OR brand LIKE ?) LIMIT 50"

def anySuffix (f : List Char → Bool) : List Char → Bool
  | [] => f []
  | c :: t => f (c :: t) || anySuffix f t

/-- Modelled from the spec: the `LIKE` operator of the storage, which is not
part of the repository, with the default escape character of the storage:
`%` matches any run of characters, `_` any single character, a backslash
makes the pattern character after it literal (a backslash that ends the
pattern stands for itself), and every other character matches the characters
the collation `eqv` equates with it. -/
def likeMatch (eqv : Char → Char → Bool) : List Char → List Char → Bool
  | [], t => t.isEmpty
  | '\\' :: q :: ps, t =>
    match t with
    | [] => false
    | c :: cs => eqv q c && likeMatch eqv ps cs
  | p :: ps, t =>
    if p = '%' then anySuffix (likeMatch eqv ps) t
    else
      match t with
      | [] => false
      | c :: cs => (p == '_' || eqv p c) && likeMatch eqv ps cs

def like (eqv : Char → Char → Bool) (text pattern : String) : Bool :=
  likeMatch eqv pattern.toList text.toList

/-- The text begins with the term, compared character by character. -/
def startsWith (eqv : Char → Char → Bool) : List Char → List Char → Bool
  | [], _ => true
  | _ :: _, [] => false
  | a :: s, c :: cs => eqv a c && startsWith eqv s cs

/-- The term appears in the text as a substring, the characters compared by
the collation `eqv`. -/
def occursIn (eqv : Char → Char → Bool) (term text : String) : Bool :=
  anySuffix (startsWith eqv term.toList) text.toList

/-- A collation that compares exactly up to the case of the letters. -/
def caseInsensitive (a b : Char) : Bool := a.toLower == b.toLower

/-- A collation that is also accent-insensitive, as far as `é` goes. -/
def accentInsensitive (a b : Char) : Bool :=
  (if a = 'é' ∨ a = 'É' then 'e' else a.toLower) ==
    (if b = 'é' ∨ b = 'É' then 'e' else b.toLower)

/-- The term appears in the text, compared case-insensitively. -/
def containsCI (term text : String) : Prop :=
  term.toList.map Char.toLower <:+: text.toList.map Char.toLower

instance (term text : String) : Decidable (containsCI term text) := by
  unfold containsCI; infer_instance

/-- The storage behind `db`: the rows of the table `products` in storage
order, whether the connection answers, and the collation of the text
columns, by which `LIKE` compares characters. -/
structure DB where
  products : List Product
  up : Bool
  collation : Char → Char → Bool

/-- The text after a given beginning, when the text begins with it. -/
def stripPrefix : List Char → List Char → Option (List Char)
  | [], s => some s
  | _ :: _, [] => none
  | p :: ps, c :: cs => if p = c then stripPrefix ps cs else none

/-- A listing statement as the storage reads it: which predicates follow
`WHERE 1=1`, and the row limit. -/
structure ListStatement where
  category : Bool
  search : Bool
  limit : Nat
  deriving DecidableEq

/-- A decimal number. -/
def parseNat (digits : List Char) : Option Nat :=
  if digits ≠ [] ∧ digits.all Char.isDigit then
    some (digits.foldl (fun n c => 10 * n + (c.toNat - '0'.toNat)) 0)
  else none

/-- Modelled from the spec: the statements of the listing as the storage
collaborator, which is not part of the repository, reads them: the fixed
selection, an optional category equality, an optional search predicate of
three `LIKE`s, and the `LIMIT`. -/
def parseStatement (query : String) : Option ListStatement :=
  (stripPrefix selectProducts.toList query.toList).bind fun r0 =>
    let c := stripPrefix " AND category=?".toList r0
    let r1 := c.getD r0
    let s := stripPrefix " AND (name LIKE ? OR description LIKE ? OR brand LIKE ?)".toList r1
    let r2 := s.getD r1
    (stripPrefix " LIMIT ".toList r2).bind fun digits =>
      (parseNat digits).map fun n => { category := c.isSome, search := s.isSome, limit := n }

/-- Modelled from the spec: `db.Query` of the storage collaborator, which is
not part of the repository, on the statements of the listing: the rows that
satisfy the predicates, in storage order, cut at the limit.  The category
predicate is an exact equality, the search predicate the three `LIKE`s, each
with its own bound argument. -/
def dbQuery (db : DB) (query : String) (args : List String) : Except DBError (List Product) :=
  if !db.up then .error (.other "connection refused")
  else
    match parseStatement query with
    | none => .error (.other "statement outside the model")
    | some st =>
      match st.category, st.search, args with
      | false, false, [] => .ok (db.products.take st.limit)
      | true, false, [c] => .ok ((db.products.filter fun p => p.Category = c).take st.limit)
      | false, true, [p1, p2, p3] =>
        .ok ((db.products.filter fun p =>
          like db.collation p.Name p1 || like db.collation p.Description p2 ||
            like db.collation p.Brand p3).take st.limit)
      | true, true, [c, p1, p2, p3] =>
        .ok ((db.products.filter fun p =>
          p.Category = c &&
            (like db.collation p.Name p1 || like db.collation p.Description p2 ||
              like db.collation p.Brand p3)).take st.limit)
      | _, _, _ => .error (.other "wrong number of arguments")

/-- The function `listProductsHandler`, on the storage and the two query
parameters. -/
def listProductsHandler (db : DB) (category search : String) : Response :=
  let qa := buildListQuery category search
  match dbQuery db qa.1 qa.2 with
  | .error _ => writeJSON 500 (.message [("error", "DB error")])
  | .ok rows => writeJSON 200 (.products rows)

def selectProduct : String :=
  "SELECT id,name,description,price,category,brand,stock,image_url,created_at FROM products WHERE id=?"

/-- The function `getProductHandler`; `queryRow` stands for
`db.QueryRow(query, arg).Scan(...)`: the error, or the scanned record and the
bytes of `created_at`. -/
def getProductHandler (queryRow : String → String → Except DBError (Product × String))
    (vars : Vars) : Response :=
  match queryRow selectProduct (String.mk ((getVar vars "id".toList).getD [])) with
  | .error .errNoRows => writeJSON 404 (.message [("error", "Not found")])
  | .error (.other _) => writeJSON 500 (.message [("error", "DB error")])
  | .ok (p, ca) => writeJSON 200 (.product { p with CreatedAt := ca })

/-- The predicate of the listing for the two filter values: the category
equality when the category is present, the three `LIKE`s when the search is. -/
def selected (eqv : Char → Char → Bool) (c s : String) (p : Product) : Bool :=
  (c == "" || p.Category == c) &&
    (s == "" || like eqv p.Name ("%" ++ s ++ "%") || like eqv p.Description ("%" ++ s ++ "%") ||
      like eqv p.Brand ("%" ++ s ++ "%"))

/-- The search term has none of the special characters of `LIKE`: the two
wildcards and the escape character. -/
def noWildcard (s : String) : Bool :=
  s.toList.all fun c => c != '%' && c != '_' && c != '\\'

/-- The names of the products of a response. -/
def listedNames (r : Response) : List String :=
  match r.body with
  | .products ps => ps.map fun p => p.Name
  | _ => []

/-- A row of the seed data of `seedDB`. -/
def stratocaster : Product :=
  { ID := 1, Name := "Fender Stratocaster Player",
    Description := "Classic American electric with three single-coil pickups.",
    Price := 749.99, Category := "Electric Guitars", Brand := "Fender", Stock := 15,
    ImageURL := "/images/fender-strat.svg", CreatedAt := "2024-01-01 00:00:00" }

/-- A row whose name ends in `%`. -/
def strap : Product :=
  { ID := 11, Name := "Cotton 100%", Description := "Guitar strap.", Price := 19.99,
    Category := "Accessories", Brand := "Levys", Stock := 40,
    ImageURL := "/images/strap.svg", CreatedAt := "2024-01-01 00:00:00" }


theorem replaceAux_skip (xs rest : Str) :
    replaceAux (xs ++ rest) xs.length = replaceAux rest 0 := by
  induction xs with
  | nil => rfl
  | cons x xs ih => simpa [replaceAux] using ih

theorem takeWhile_append_stop (p : Char → Bool) (xs : Str) (c : Char) (rest : Str)
    (hxs : ∀ x ∈ xs, p x = true) (hc : p c = false) :
    (xs ++ c :: rest).takeWhile p = xs ∧ (xs ++ c :: rest).dropWhile p = c :: rest := by
  induction xs with
  | nil => simp [List.takeWhile, List.dropWhile, hc]
  | cons x xs ih =>
    have hx : p x = true := hxs x (List.mem_cons_self _ _)
    have := ih (fun y hy => hxs y (List.mem_cons_of_mem _ hy))
    simp [List.takeWhile, List.dropWhile, hx, this]

theorem placeholderAt_lit (c : Char) (s : Str) (h : isMetaChar c = false) :
    placeholderAt (c :: s) = none := by
  have hc : c ≠ '{' := by
    intro e; subst e; simp [isMetaChar] at h
  unfold placeholderAt
  split
  · rename_i t heq
    exact absurd (List.cons.inj heq).1 hc
  · rfl

theorem placeholderAt_ph (name rest : Str) (hne : name ≠ [])
    (hw : ∀ c ∈ name, isWordChar c = true) :
    placeholderAt ('{' :: (name ++ '}' :: rest)) = some name := by
  have h := takeWhile_append_stop isWordChar name '}' rest hw (by decide)
  cases name with
  | nil => exact absurd rfl hne
  | cons a as =>
    simp only [placeholderAt, h.1, h.2]

theorem plainItem_ph {name : Str} (h : plainItem (.ph name) = true) :
    name ≠ [] ∧ ∀ c ∈ name, isWordChar c = true := by
  simp [plainItem] at h
  refine ⟨?_, h.2⟩
  intro e; simp [e] at h

theorem replaceAux_render (items : List Item) (h : plainTemplate items = true) :
    replaceAux (render items) 0 = (patternOf items, names items) := by
  induction items with
  | nil => rfl
  | cons it r ih =>
    have hr : plainTemplate r = true := by
      simp [plainTemplate] at h ⊢; exact h.2
    have hi : plainItem it = true := by
      simp [plainTemplate] at h; exact h.1
    cases it with
    | lit c =>
      have hc : isMetaChar c = false := by simpa [plainItem] using hi
      simp [render, replaceAux, placeholderAt_lit c _ hc, ih hr, patternOf, names]
    | ph name =>
      obtain ⟨hne, hw⟩ := plainItem_ph hi
      have hskip := replaceAux_skip (name ++ ['}']) (render r)
      simp only [List.append_assoc, List.singleton_append, List.length_append,
        List.length_singleton] at hskip
      simp [render, replaceAux, placeholderAt_ph name _ hne hw, hskip, ih hr, patternOf, names]

theorem replacePlaceholders_render (items : List Item) (h : plainTemplate items = true) :
    replacePlaceholders (render items) = (patternOf items, names items) :=
  replaceAux_render items h

theorem parseAlts_lit (c : Char) (r : Str) (h : isMetaChar c = false) :
    parseAlts (c :: r) = (parseAlts r).map (consAtom (.chr c)) := by
  conv_lhs => unfold parseAlts
  split <;> simp_all [isMetaChar]

theorem parseAlts_group (r : Str) :
    parseAlts (groupText ++ r) = (parseAlts r).map (consAtom .cap) := by
  simp [groupText, parseAlts]

theorem parseAlts_patternOf (items : List Item) (h : plainTemplate items = true) :
    parseAlts (patternOf items ++ ['$']) = some [atomsOf items ++ [.eol]] := by
  induction items with
  | nil => simp [patternOf, atomsOf, parseAlts, consAtom]
  | cons it r ih =>
    have hr : plainTemplate r = true := by
      simp [plainTemplate] at h ⊢; exact h.2
    have hi : plainItem it = true := by
      simp [plainTemplate] at h; exact h.1
    cases it with
    | lit c =>
      have hc : isMetaChar c = false := by simpa [plainItem] using hi
      simp [patternOf, atomsOf, parseAlts_lit c _ hc, ih hr, consAtom]
    | ph name =>
      simp [patternOf, atomsOf, parseAlts_group, ih hr, consAtom]

theorem compile_patternOf (items : List Item) (h : plainTemplate items = true) :
    compile ('^' :: patternOf items ++ ['$']) = some ⟨[.bol :: (atomsOf items ++ [.eol])]⟩ := by
  have := parseAlts_patternOf items h
  simp only [List.cons_append] at this ⊢
  simp [compile, parseAlts, this, consAtom]


theorem firstFrom_some {α : Type} (f : Nat → Option α) (n : Nat) (a : α)
    (h : firstFrom f n = some a) : ∃ k, 1 ≤ k ∧ k ≤ n ∧ f k = some a := by
  induction n with
  | zero => simp [firstFrom] at h
  | succ n ih =>
    unfold firstFrom at h
    split at h
    · rename_i b hb
      cases h
      exact ⟨n + 1, by omega, le_refl _, hb⟩
    · obtain ⟨k, h1, h2, h3⟩ := ih h
      exact ⟨k, h1, by omega, h3⟩

theorem firstFrom_isSome {α : Type} (f : Nat → Option α) (n k : Nat)
    (h1 : 1 ≤ k) (h2 : k ≤ n) (hk : (f k).isSome = true) : (firstFrom f n).isSome = true := by
  induction n with
  | zero => omega
  | succ n ih =>
    unfold firstFrom
    split
    · rfl
    · rename_i hnone
      by_cases hkn : k = n + 1
      · subst hkn; simp [hnone] at hk
      · exact ih (by omega)

theorem firstFrom_top {α : Type} (f : Nat → Option α) (n : Nat) (a : α)
    (h : f (n + 1) = some a) : firstFrom f (n + 1) = some a := by
  simp [firstFrom, h]

theorem goodValue_iff (v : Str) : goodValue v = true ↔ v ≠ [] ∧ ∀ c ∈ v, c ≠ '/' := by
  cases v <;> simp [goodValue]

theorem take_takeWhile_good (s : Str) (k : Nat) (h1 : 1 ≤ k)
    (h2 : k ≤ (s.takeWhile fun c => c != '/').length) : goodValue (s.take k) = true := by
  rw [goodValue_iff]
  have hlen : (s.takeWhile fun c => c != '/').length ≤ s.length :=
    (List.takeWhile_sublist _).length_le
  constructor
  · intro e
    have hl : (s.take k).length = 0 := by rw [e]; rfl
    rw [List.length_take] at hl
    omega
  · intro c hc
    have hp : s.take k = (s.takeWhile fun c => c != '/').take k := by
      conv_lhs => rw [← List.takeWhile_append_dropWhile (fun c => c != '/') s]
      rw [List.take_append_of_le_length h2]
    rw [hp] at hc
    have := List.mem_takeWhile_imp (List.mem_of_mem_take hc)
    simpa using this

theorem matchAtoms_sound (items : List Item) :
    ∀ (b : Bool) (s rest : Str) (caps : List Str),
      matchAtoms (atomsOf items ++ [.eol]) b s = some (rest, caps) →
      rest = [] ∧ caps.length = (names items).length ∧ (∀ v ∈ caps, goodValue v = true) ∧
        s = subst items caps := by
  induction items with
  | nil =>
    intro b s rest caps h
    simp [atomsOf, matchAtoms] at h
    obtain ⟨hs, h1, h2⟩ := h
    subst hs; subst h1; subst h2
    simp [names, subst]
  | cons it r ih =>
    intro b s rest caps h
    cases it with
    | lit c =>
      cases s with
      | nil => simp [atomsOf, matchAtoms] at h
      | cons x xs =>
        simp only [atomsOf, List.cons_append, matchAtoms] at h
        split at h
        · rename_i hx
          obtain ⟨h1, h2, h3, h4⟩ := ih false xs rest caps h
          exact ⟨h1, by simpa [names] using h2, h3, by simp [subst, hx, ← h4]⟩
        · cases h
    | ph name =>
      simp only [atomsOf, List.cons_append, matchAtoms, List.append_eq] at h
      obtain ⟨k, hk1, hk2, hk⟩ := firstFrom_some _ _ _ h
      cases hm : matchAtoms (atomsOf r ++ [.eol]) false (s.drop k) with
      | none => simp [hm] at hk
      | some res =>
        simp only [hm, Option.map_some', Option.some.injEq, Prod.mk.injEq] at hk
        obtain ⟨h1, h2, h3, h4⟩ := ih false (s.drop k) res.1 res.2 hm
        obtain ⟨hk3, hk4⟩ := hk
        subst hk4
        refine ⟨hk3 ▸ h1, by simp [names, h2], ?_, ?_⟩
        · intro v hv
          rcases List.mem_cons.mp hv with e | hv
          · subst e; exact take_takeWhile_good s k hk1 hk2
          · exact h3 v hv
        · simp only [subst, ← h4, List.take_append_drop]

theorem takeWhile_good_le (v rest : Str) (hv : goodValue v = true) :
    v.length ≤ ((v ++ rest).takeWhile fun c => c != '/').length := by
  rw [goodValue_iff] at hv
  have : (v ++ rest).takeWhile (fun c => c != '/') = v ++ rest.takeWhile (fun c => c != '/') := by
    apply List.takeWhile_append_of_pos
    intro c hc
    simpa using hv.2 c hc
  simp [this]

theorem matchAtoms_complete (items : List Item) :
    ∀ (b : Bool) (vals : List Str), vals.length = (names items).length →
      (∀ v ∈ vals, goodValue v = true) →
      (matchAtoms (atomsOf items ++ [.eol]) b (subst items vals)).isSome = true := by
  induction items with
  | nil => intro b vals _ _; simp [atomsOf, matchAtoms, subst]
  | cons it r ih =>
    intro b vals hlen hgood
    cases it with
    | lit c =>
      simp only [atomsOf, List.cons_append, subst, matchAtoms, if_true]
      exact ih false vals (by simpa [names] using hlen) hgood
    | ph name =>
      cases vals with
      | nil => simp [names] at hlen
      | cons v vs =>
        simp only [atomsOf, List.cons_append, subst, matchAtoms]
        have hv : goodValue v = true := hgood v (List.mem_cons_self _ _)
        have hne : v ≠ [] := ((goodValue_iff v).mp hv).1
        apply firstFrom_isSome _ _ v.length
        · cases v with
          | nil => exact absurd rfl hne
          | cons a as => simp
        · exact takeWhile_good_le v _ hv
        · have := ih false vs (by simpa [names] using hlen)
            (fun w hw => hgood w (List.mem_cons_of_mem _ hw))
          simpa using this


theorem takeWhile_good_sep (v : Str) (r : List Item) (vs : List Str) (name : Str)
    (hv : goodValue v = true) (hsep : separated (.ph name :: r) = true) :
    ((v ++ subst r vs).takeWhile fun c => c != '/') = v := by
  have hg := ((goodValue_iff v).mp hv).2
  have hall : ∀ x ∈ v, (fun c => c != '/') x = true := fun x hx => by simpa using hg x hx
  cases r with
  | nil =>
    simp only [subst, List.append_nil]
    exact List.takeWhile_eq_self_iff.mpr hall
  | cons it r =>
    cases it with
    | lit c =>
      simp only [separated, Bool.and_eq_true, beq_iff_eq] at hsep
      simp only [subst, hsep.1]
      exact (takeWhile_append_stop _ v '/' _ hall (by decide)).1
    | ph n => simp [separated] at hsep

theorem separated_tail (it : Item) (r : List Item) (h : separated (it :: r) = true) :
    separated r = true := by
  cases it with
  | lit c => simpa [separated] using h
  | ph n =>
    cases r with
    | nil => rfl
    | cons it2 r2 =>
      cases it2 with
      | lit c =>
        simp only [separated, Bool.and_eq_true] at h ⊢
        exact h.2
      | ph m => simp [separated] at h

theorem matchAtoms_separated (items : List Item) :
    ∀ (b : Bool) (vals : List Str), separated items = true →
      vals.length = (names items).length → (∀ v ∈ vals, goodValue v = true) →
      matchAtoms (atomsOf items ++ [.eol]) b (subst items vals) = some ([], vals) := by
  induction items with
  | nil =>
    intro b vals _ hlen _
    have : vals = [] := List.length_eq_zero.mp (by simpa [names] using hlen)
    simp [atomsOf, matchAtoms, subst, this]
  | cons it r ih =>
    intro b vals hsep hlen hgood
    have hsr := separated_tail it r hsep
    cases it with
    | lit c =>
      simp only [atomsOf, List.cons_append, subst, matchAtoms, if_true]
      exact ih false vals hsr (by simpa [names] using hlen) hgood
    | ph name =>
      cases vals with
      | nil => simp [names] at hlen
      | cons v vs =>
        have hv : goodValue v = true := hgood v (List.mem_cons_self _ _)
        have hne : v ≠ [] := ((goodValue_iff v).mp hv).1
        have hrec := ih false vs hsr (by simpa [names] using hlen)
          (fun w hw => hgood w (List.mem_cons_of_mem _ hw))
        simp only [atomsOf, List.cons_append, subst, matchAtoms, List.append_eq,
          takeWhile_good_sep v r vs name hv hsep]
        obtain ⟨k, hk⟩ : ∃ k, v.length = k + 1 := by
          cases v with
          | nil => exact absurd rfl hne
          | cons a as => exact ⟨as.length, rfl⟩
        rw [hk]
        apply firstFrom_top
        rw [← hk]
        simp [hrec]

theorem matchHere_bol_false (X : List Atom) (s : Str) :
    matchHere ⟨[.bol :: X]⟩ false s = none := by
  simp [matchHere, matchAlts, matchAtoms]

theorem searchFrom_bol_false (X : List Atom) (s : Str) :
    searchFrom ⟨[.bol :: X]⟩ false s = none := by
  induction s with
  | nil => simp [searchFrom, matchHere_bol_false]
  | cons c t ih => simp [searchFrom, matchHere_bol_false, ih]

theorem findStringSubmatch_anchored (X : List Atom) (s : Str) :
    findStringSubmatch ⟨[.bol :: X]⟩ s =
      (matchAtoms X true s).map fun res => s.take (s.length - res.1.length) :: res.2 := by
  have hh : matchHere ⟨[.bol :: X]⟩ true s =
      (matchAtoms X true s).map fun res => s.take (s.length - res.1.length) :: res.2 := by
    cases hm : matchAtoms X true s <;> simp [matchHere, matchAlts, matchAtoms, hm]
  cases s with
  | nil => simpa [findStringSubmatch, searchFrom] using hh
  | cons c t =>
    rw [← hh]
    simp only [findStringSubmatch, searchFrom, searchFrom_bol_false]
    cases matchHere ⟨[.bol :: X]⟩ true (c :: t) <;> rfl


theorem addRoute_render {H : Type} (t : List (routeEntry H)) (r : Str × List Item × H)
    (h : plainTemplate r.2.1 = true) :
    addRoute t r.1 (render r.2.1) r.2.2 = some (t ++ [templateEntry r]) := by
  have hc := compile_patternOf r.2.1 h
  simp only [List.cons_append] at hc
  simp [addRoute, replacePlaceholders_render _ h, hc, templateEntry]

theorem registerAll_render {H : Type} (routes : List (Str × List Item × H)) :
    ∀ t : List (routeEntry H), (∀ r ∈ routes, plainTemplate r.2.1 = true) →
      registerAll (routes.map renderRoute) t = some (t ++ routes.map templateEntry) := by
  induction routes with
  | nil => intro t _; simp [registerAll]
  | cons r rs ih =>
    intro t h
    have h1 := addRoute_render t r (h r (List.mem_cons_self _ _))
    have h2 := ih (t ++ [templateEntry r]) (fun x hx => h x (List.mem_cons_of_mem _ hx))
    simp only [List.map_cons, renderRoute, registerAll] at h2 ⊢
    rw [h1]
    simpa using h2

theorem find_template_some (items : List Item) (s : Str) (m : List Str)
    (h : findStringSubmatch ⟨[.bol :: (atomsOf items ++ [.eol])]⟩ s = some m) :
    ∃ caps, m = s :: caps ∧ caps.length = (names items).length ∧
      (∀ v ∈ caps, goodValue v = true) ∧ s = subst items caps := by
  rw [findStringSubmatch_anchored] at h
  cases hm : matchAtoms (atomsOf items ++ [.eol]) true s with
  | none => simp [hm] at h
  | some res =>
    obtain ⟨h1, h2, h3, h4⟩ := matchAtoms_sound items true s res.1 res.2 hm
    simp only [hm, Option.map_some', Option.some.injEq, h1, List.length_nil, Nat.sub_zero,
      List.take_length] at h
    exact ⟨res.2, h.symm, h2, h3, h4⟩

theorem find_template_isSome_iff (items : List Item) (s : Str) :
    (findStringSubmatch ⟨[.bol :: (atomsOf items ++ [.eol])]⟩ s).isSome = true ↔
      isInstance items s := by
  constructor
  · intro h
    obtain ⟨m, hm⟩ := Option.isSome_iff_exists.mp h
    obtain ⟨caps, _, h2, h3, h4⟩ := find_template_some items s m hm
    exact ⟨caps, h2, h3, h4⟩
  · rintro ⟨vals, h1, h2, h3⟩
    have := matchAtoms_complete items true vals h1 h2
    rw [findStringSubmatch_anchored, h3]
    simpa using this

theorem find_template_separated (items : List Item) (vals : List Str)
    (hsep : separated items = true) (hlen : vals.length = (names items).length)
    (hgood : ∀ v ∈ vals, goodValue v = true) :
    findStringSubmatch ⟨[.bol :: (atomsOf items ++ [.eol])]⟩ (subst items vals) =
      some (subst items vals :: vals) := by
  rw [findStringSubmatch_anchored, matchAtoms_separated items true vals hsep hlen hgood]
  simp

theorem fillVars_eq (ns : List Str) :
    ∀ (i : Nat) (pre caps : List Str) (vars : Vars), pre.length = i + 1 →
      ns.length ≤ caps.length →
      fillVars ns i (pre ++ caps) vars =
        some ((ns.zip caps).foldl (fun a p => setVar a p.1 p.2) vars) := by
  induction ns with
  | nil => intro i pre caps vars _ _; simp [fillVars]
  | cons n ns ih =>
    intro i pre caps vars hpre hlen
    cases caps with
    | nil => simp at hlen
    | cons c cs =>
      have hget : (pre ++ c :: cs).get? (i + 1) = some c := by
        rw [← hpre, List.get?_eq_getElem?, List.getElem?_append_right (le_refl _)]; simp
      have := ih (i + 1) (pre ++ [c]) cs (setVar vars n c) (by simp [hpre])
        (by simpa using hlen)
      simp only [List.append_assoc, List.singleton_append] at this
      simp only [fillVars, hget, this, List.zip_cons_cons, List.foldl_cons]

theorem dispatch_skip {H : Type} (pre rest : List (routeEntry H)) (method path : Str)
    (h : ∀ e ∈ pre, ¬ selects e method path) :
    dispatch (pre ++ rest) method path = dispatch rest method path := by
  induction pre with
  | nil => rfl
  | cons e pre ih =>
    have he := h e (List.mem_cons_self _ _)
    have ih := ih (fun x hx => h x (List.mem_cons_of_mem _ hx))
    simp only [List.cons_append, dispatch]
    by_cases hm : e.method = method
    · have hf : findStringSubmatch e.pattern path = none := by
        cases hfs : findStringSubmatch e.pattern path with
        | none => rfl
        | some m => exact absurd ⟨hm, by simp [hfs]⟩ he
      simp [hm, hf, ih]
    · simp [hm, ih]

theorem dispatch_hit {H : Type} (e : routeEntry H) (rest : List (routeEntry H))
    (method path : Str) (m : List Str) (vars : Vars) (hm : e.method = method)
    (hf : findStringSubmatch e.pattern path = some m)
    (hv : fillVars e.params 0 m [] = some vars) :
    dispatch (e :: rest) method path = .handled e.handler vars := by
  simp [dispatch, hm, hf, hv]


theorem getVar_setVar_same (vars : Vars) (k v : Str) : getVar (setVar vars k v) k = some v := by
  induction vars with
  | nil => simp [setVar, getVar]
  | cons e r ih =>
    obtain ⟨k0, v0⟩ := e
    by_cases h : k0 = k <;> simp [setVar, getVar, h, ih]

theorem getVar_setVar_ne (vars : Vars) (k v n : Str) (hn : k ≠ n) :
    getVar (setVar vars k v) n = getVar vars n := by
  induction vars with
  | nil => simp [setVar, getVar, hn]
  | cons e r ih =>
    obtain ⟨k0, v0⟩ := e
    by_cases h : k0 = k
    · subst h; simp [setVar, getVar, hn]
    · by_cases h2 : k0 = n
      · subst h2; simp [setVar, getVar, h]
      · simp [setVar, getVar, h, h2, ih]

theorem keys_setVar (vars : Vars) (k v : Str) :
    (setVar vars k v).map Prod.fst =
      if k ∈ vars.map Prod.fst then vars.map Prod.fst else vars.map Prod.fst ++ [k] := by
  induction vars with
  | nil => simp [setVar]
  | cons e r ih =>
    obtain ⟨k0, v0⟩ := e
    by_cases h : k0 = k
    · subst h; simp [setVar]
    · have h' : ¬ k = k0 := fun e => h e.symm
      by_cases hm : k ∈ r.map Prod.fst
      · simp only [setVar, h, if_false, List.map_cons, ih, hm, if_true, List.mem_cons, h',
          false_or]
      · simp only [setVar, h, if_false, List.map_cons, ih, hm, List.mem_cons, h', false_or,
          List.cons_append]

theorem nodup_setVar (vars : Vars) (k v : Str) (h : (vars.map Prod.fst).Nodup) :
    ((setVar vars k v).map Prod.fst).Nodup := by
  rw [keys_setVar]
  split
  · exact h
  · rename_i hk
    exact List.Nodup.append h (List.nodup_singleton k) (by simpa using hk)

theorem nodup_foldl_setVar (pairs : List (Str × Str)) :
    ∀ vars : Vars, (vars.map Prod.fst).Nodup →
      ((pairs.foldl (fun a p => setVar a p.1 p.2) vars).map Prod.fst).Nodup := by
  induction pairs with
  | nil => intro vars h; exact h
  | cons p ps ih => intro vars h; exact ih _ (nodup_setVar vars p.1 p.2 h)

theorem getVar_foldl_not_mem (pairs : List (Str × Str)) (n : Str) :
    ∀ vars : Vars, (∀ p ∈ pairs, p.1 ≠ n) →
      getVar (pairs.foldl (fun a p => setVar a p.1 p.2) vars) n = getVar vars n := by
  induction pairs with
  | nil => intro vars _; rfl
  | cons p ps ih =>
    intro vars h
    rw [List.foldl_cons, ih _ (fun q hq => h q (List.mem_cons_of_mem _ hq))]
    exact getVar_setVar_ne vars p.1 p.2 n (h p (List.mem_cons_self _ _))

theorem getVar_foldl_last (pairs : List (Str × Str)) (n c : Str) :
    ∀ (vars : Vars) (j : Nat), pairs[j]? = some (n, c) →
      (∀ k p, j < k → pairs[k]? = some p → p.1 ≠ n) →
      getVar (pairs.foldl (fun a p => setVar a p.1 p.2) vars) n = some c := by
  induction pairs with
  | nil => intro vars j h; simp at h
  | cons p ps ih =>
    intro vars j hj hlast
    cases j with
    | zero =>
      simp only [List.getElem?_cons_zero, Option.some.injEq] at hj
      subst hj
      rw [List.foldl_cons, getVar_foldl_not_mem]
      · exact getVar_setVar_same vars n c
      · intro q hq
        obtain ⟨k, hk⟩ := List.getElem?_of_mem hq
        exact hlast (k + 1) q (Nat.succ_pos k) (by simpa using hk)
    | succ j =>
      rw [List.foldl_cons]
      apply ih _ j (by simpa using hj)
      intro k q hk hq
      exact hlast (k + 1) q (by omega) (by simpa using hq)

theorem entriesFor_of_getVar (vars : Vars) (n c : Str) (hnd : (vars.map Prod.fst).Nodup)
    (h : getVar vars n = some c) : entriesFor vars n = 1 := by
  induction vars with
  | nil => simp [getVar] at h
  | cons e r ih =>
    obtain ⟨k0, v0⟩ := e
    simp only [List.map_cons, List.nodup_cons] at hnd
    by_cases hk : k0 = n
    · subst hk
      have : (r.filter fun e => e.1 = k0) = [] := by
        rw [List.filter_eq_nil_iff]
        intro x hx hx1
        exact hnd.1 (List.mem_map.mpr ⟨x, hx, by simpa using hx1⟩)
      simp [entriesFor, this]
    · simp only [getVar, hk, if_false] at h
      have := ih hnd.2 h
      simpa [entriesFor, hk] using this


theorem segments_ne_nil (s : Str) : segments s ≠ [] := by
  cases s with
  | nil => simp [segments]
  | cons c cs =>
    simp only [segments]
    split
    · simp
    · split <;> simp

theorem segments_cons_noslash (c : Char) (s : Str) (hc : c ≠ '/') :
    ∃ hd tl, segments s = hd :: tl ∧ segments (c :: s) = (c :: hd) :: tl := by
  cases hs : segments s with
  | nil => exact absurd hs (segments_ne_nil s)
  | cons hd tl => exact ⟨hd, tl, rfl, by simp [segments, hc, hs]⟩

theorem segments_append_noslash (xs s : Str) (hxs : ∀ c ∈ xs, c ≠ '/') :
    ∃ hd tl, segments s = hd :: tl ∧ segments (xs ++ s) = (xs ++ hd) :: tl := by
  induction xs with
  | nil =>
    cases hs : segments s with
    | nil => exact absurd hs (segments_ne_nil s)
    | cons hd tl => exact ⟨hd, tl, rfl, by simpa using hs⟩
  | cons x xs ih =>
    obtain ⟨hd, tl, h1, h2⟩ := ih (fun c hc => hxs c (List.mem_cons_of_mem _ hc))
    obtain ⟨hd2, tl2, h3, h4⟩ := segments_cons_noslash x (xs ++ s) (hxs x (List.mem_cons_self _ _))
    rw [h2] at h3
    cases h3
    exact ⟨hd, tl, h1, by simpa using h4⟩

theorem isLiteralSegment_lit (c : Char) (t : Str) (hc : isMetaChar c = false) :
    isLiteralSegment (c :: t) = isLiteralSegment t := by
  simp [isLiteralSegment, replacePlaceholders, replaceAux, placeholderAt_lit c t hc]

theorem isLiteralSegment_ph (name t : Str) (hne : name ≠ [])
    (hw : ∀ c ∈ name, isWordChar c = true) :
    isLiteralSegment ('{' :: (name ++ '}' :: t)) = false := by
  simp [isLiteralSegment, replacePlaceholders, replaceAux, placeholderAt_ph name t hne hw]

theorem wordChar_ne_slash (c : Char) (h : isWordChar c = true) : c ≠ '/' := by
  intro e; subst e; revert h; decide

theorem segments_template (items : List Item) (hp : plainTemplate items = true) :
    ∀ caps : List Str, (∀ v ∈ caps, goodValue v = true) →
      List.Forall₂ (fun t p => isLiteralSegment t = true → t = p)
        (segments (render items)) (segments (subst items caps)) := by
  induction items with
  | nil =>
    intro caps _
    simp [render, subst, segments]
  | cons it r ih =>
    intro caps hgood
    have hr : plainTemplate r = true := by
      simp [plainTemplate] at hp ⊢; exact hp.2
    have hi : plainItem it = true := by
      simp [plainTemplate] at hp; exact hp.1
    cases it with
    | lit c =>
      have hc : isMetaChar c = false := by simpa [plainItem] using hi
      have hrec := ih hr caps hgood
      by_cases hs : c = '/'
      · subst hs
        simp only [render, subst, segments, if_true]
        exact List.Forall₂.cons (fun _ => rfl) hrec
      · obtain ⟨th, tt, h1, h2⟩ := segments_cons_noslash c (render r) hs
        obtain ⟨ph, pt, h3, h4⟩ := segments_cons_noslash c (subst r caps) hs
        simp only [render, subst, h2, h4]
        rw [h1, h3] at hrec
        cases hrec with
        | cons hhead htail =>
          refine List.Forall₂.cons ?_ htail
          intro hl
          rw [isLiteralSegment_lit c th hc] at hl
          rw [hhead hl]
    | ph name =>
      obtain ⟨hne, hw⟩ := plainItem_ph hi
      have hxs : ∀ c ∈ '{' :: (name ++ ['}']), c ≠ '/' := by
        intro c hc
        simp only [List.mem_cons, List.mem_append, List.mem_singleton, List.not_mem_nil,
          or_false] at hc
        rcases hc with e | h | e
        · subst e; decide
        · exact wordChar_ne_slash c (hw c h)
        · subst e; decide
      obtain ⟨th, tt, h1, h2⟩ := segments_append_noslash _ (render r) hxs
      have h2' : segments (render (.ph name :: r)) = ('{' :: (name ++ '}' :: th)) :: tt := by
        simpa [render] using h2
      have hnl : isLiteralSegment ('{' :: (name ++ '}' :: th)) = true → False := by
        rw [isLiteralSegment_ph name th hne hw]; simp
      cases caps with
      | nil =>
        have hrec := ih hr [] hgood
        rw [h2']
        simp only [subst]
        rw [h1] at hrec
        cases h3 : segments (subst r []) with
        | nil => exact absurd h3 (segments_ne_nil _)
        | cons ph pt =>
          rw [h3] at hrec
          cases hrec with
          | cons hhead htail => exact List.Forall₂.cons (fun hl => (hnl hl).elim) htail
      | cons v vs =>
        have hrec := ih hr vs (fun w hw => hgood w (List.mem_cons_of_mem _ hw))
        have hv := ((goodValue_iff v).mp (hgood v (List.mem_cons_self _ _))).2
        obtain ⟨ph, pt, h3, h4⟩ := segments_append_noslash v (subst r vs) hv
        rw [h2']
        simp only [subst, h4]
        rw [h1, h3] at hrec
        cases hrec with
        | cons hhead htail => exact List.Forall₂.cons (fun hl => (hnl hl).elim) htail

theorem pathDiffers_instance (items : List Item) (hp : plainTemplate items = true)
    (path : Str) (h : isInstance items path) : pathDiffers (render items) path = false := by
  obtain ⟨caps, _, hgood, rfl⟩ := h
  have hf := segments_template items hp caps hgood
  obtain ⟨hlen, hzip⟩ := List.forall₂_iff_zip.mp hf
  simp only [pathDiffers, Bool.or_eq_false_iff, bne_eq_false_iff_eq, List.any_eq_false,
    Bool.and_eq_true, bne_iff_ne, ne_eq, not_and, not_not]
  refine ⟨hlen, ?_⟩
  intro p hp1 hp2
  exact hzip (a := p.1) (b := p.2) hp1 hp2


theorem dropWhile_replicate_append (p : Char → Bool) (c : Char) (k : Nat) (l : Str)
    (hc : p c = true) : (List.replicate k c ++ l).dropWhile p = l.dropWhile p := by
  induction k with
  | zero => rfl
  | succ k ih => simp [List.replicate_succ, List.dropWhile, hc, ih]

theorem trimRight_slashes (body : Str) (k : Nat) (h : body.getLast? ≠ some '/') :
    trimRight (body ++ List.replicate k '/') ['/'] = body := by
  unfold trimRight
  rw [List.reverse_append, List.reverse_replicate,
    dropWhile_replicate_append _ '/' k _ (by simp)]
  have : body.reverse.dropWhile (fun c => decide (c ∈ ['/'])) = body.reverse := by
    cases hb : body.reverse with
    | nil => rfl
    | cons x xs =>
      have hx : body.getLast? = some x := by
        rw [← List.head?_reverse, hb]; rfl
      have : x ≠ '/' := fun e => h (e ▸ hx)
      simp [List.dropWhile, this]
  rw [this, List.reverse_reverse]

theorem normalizePath_slashes (body : Str) (k : Nat) (h : body.getLast? ≠ some '/') :
    normalizePath (body ++ List.replicate k '/') = if body = [] then ['/'] else body := by
  simp only [normalizePath, trimRight_slashes body k h]

theorem path_decompose (path : Str) :
    ∃ (body : Str) (k : Nat), body.getLast? ≠ some '/' ∧ path = body ++ List.replicate k '/' := by
  induction path using List.reverseRecOn with
  | nil => exact ⟨[], 0, by simp, rfl⟩
  | append_singleton xs x ih =>
    by_cases hx : x = '/'
    · obtain ⟨body, k, hb, hp⟩ := ih
      refine ⟨body, k + 1, hb, ?_⟩
      rw [hp, hx, List.replicate_succ', List.append_assoc]
    · exact ⟨xs ++ [x], 0, by simp [hx], by simp⟩

theorem selects_templateEntry {H : Type} (r : Str × List Item × H) (method path : Str) :
    selects (templateEntry r) method path ↔ r.1 = method ∧ isInstance r.2.1 path := by
  simp only [selects, templateEntry, find_template_isSome_iff]

theorem fillVars_template (items : List Item) (path : Str) (caps : List Str)
    (hlen : caps.length = (names items).length) :
    fillVars (names items) 0 (path :: caps) [] =
      some (((names items).zip caps).foldl (fun a p => setVar a p.1 p.2) []) := by
  have := fillVars_eq (names items) 0 [path] caps [] rfl (by omega)
  simpa using this


theorem dispatch_routes {H : Type} (routes : List (Str × List Item × H)) (method path : Str) :
    (dispatch (routes.map templateEntry) method path = .notFound ∧
      ∀ r ∈ routes, ¬ (r.1 = method ∧ isInstance r.2.1 path)) ∨
    ∃ pre r post caps, routes = pre ++ r :: post ∧
      (∀ x ∈ pre, ¬ (x.1 = method ∧ isInstance x.2.1 path)) ∧ r.1 = method ∧
      findStringSubmatch (templateEntry r).pattern path = some (path :: caps) ∧
      caps.length = (names r.2.1).length ∧ (∀ v ∈ caps, goodValue v = true) ∧
      path = subst r.2.1 caps ∧
      dispatch (routes.map templateEntry) method path =
        .handled r.2.2 (((names r.2.1).zip caps).foldl (fun a p => setVar a p.1 p.2) []) := by
  induction routes with
  | nil => left; simp [dispatch]
  | cons r rs ih =>
    by_cases hsel : selects (templateEntry r) method path
    · right
      obtain ⟨hm, hf⟩ := hsel
      obtain ⟨m, hfm⟩ := Option.isSome_iff_exists.mp hf
      obtain ⟨caps, h1, h2, h3, h4⟩ := find_template_some r.2.1 path m hfm
      subst h1
      refine ⟨[], r, rs, caps, rfl, by simp, hm, hfm, h2, h3, h4, ?_⟩
      exact dispatch_hit (templateEntry r) _ method path (path :: caps) _ hm hfm
        (fillVars_template r.2.1 path caps h2)
    · have hskip := dispatch_skip [templateEntry r] (rs.map templateEntry) method path
        (by simpa using hsel)
      simp only [List.singleton_append] at hskip
      have hnot : ¬ (r.1 = method ∧ isInstance r.2.1 path) :=
        fun h => hsel ((selects_templateEntry r method path).mpr h)
      rcases ih with ⟨h1, h2⟩ | ⟨pre, r2, post, caps, h1, h2, h3, h4, h5, h6, h7, h8⟩
      · left
        refine ⟨by rw [List.map_cons, hskip, h1], ?_⟩
        intro x hx
        rcases List.mem_cons.mp hx with rfl | hx
        · exact hnot
        · exact h2 x hx
      · right
        refine ⟨r :: pre, r2, post, caps, by simp [h1], ?_, h3, h4, h5, h6, h7,
          by rw [List.map_cons, hskip, h8]⟩
        intro x hx
        rcases List.mem_cons.mp hx with rfl | hx
        · exact hnot
        · exact h2 x hx

theorem getVar_zip_last (ns caps : List Str) (hlen : caps.length = ns.length) (j : Nat)
    (n : Str) (hj : ns[j]? = some n) (hlast : ∀ k, j < k → ns[k]? ≠ some n) :
    getVar ((ns.zip caps).foldl (fun a p => setVar a p.1 p.2) []) n = caps[j]? := by
  have hjlt : j < ns.length := by
    by_contra hge
    rw [List.getElem?_eq_none (by omega)] at hj
    cases hj
  obtain ⟨c, hc⟩ : ∃ c, caps[j]? = some c :=
    ⟨caps.get ⟨j, by omega⟩, List.getElem?_eq_getElem (by omega)⟩
  rw [hc]
  apply getVar_foldl_last _ n _ [] j
  · rw [List.getElem?_zip_eq_some]
    exact ⟨hj, hc⟩
  · intro k p hk hp hp1
    rw [List.getElem?_zip_eq_some] at hp
    exact hlast k hk (hp1 ▸ hp.1)


theorem bne_empty (c : String) : (c != "") = decide (c ≠ "") := by
  by_cases h : c = "" <;> simp [h]

theorem buildListQuery_text (c s : String) :
    (buildListQuery c s).1 = fixedQueryText (c != "") (s != "") := by
  rw [bne_empty, bne_empty]
  by_cases hc : c = "" <;> by_cases hs : s = "" <;>
    simp [buildListQuery, fixedQueryText, selectProducts, hc, hs]

theorem buildListQuery_args (c s : String) :
    (buildListQuery c s).2 =
      (if c ≠ "" then [c] else []) ++
        (if s ≠ "" then ["%" ++ s ++ "%", "%" ++ s ++ "%", "%" ++ s ++ "%"] else []) := by
  by_cases hc : c = "" <;> by_cases hs : s = "" <;> simp [buildListQuery, hc, hs]


theorem selected_eq (eqv : Char → Char → Bool) (c s : String) (p : Product) :
    selected eqv c s p =
      ((decide (c = "") || decide (p.Category = c)) &&
        (decide (s = "") || like eqv p.Name ("%" ++ s ++ "%") ||
          like eqv p.Description ("%" ++ s ++ "%") || like eqv p.Brand ("%" ++ s ++ "%"))) := by
  rfl

set_option maxRecDepth 100000 in
theorem parseStatement_fixed (a b : Bool) :
    parseStatement (fixedQueryText a b) = some { category := a, search := b, limit := 50 } := by
  cases a <;> cases b <;> decide

theorem dbQuery_built (db : DB) (c s : String) :
    dbQuery db (buildListQuery c s).1 (buildListQuery c s).2 =
      if db.up then .ok ((db.products.filter (selected db.collation c s)).take 50)
      else .error (.other "connection refused") := by
  rw [buildListQuery_text, buildListQuery_args, bne_empty, bne_empty]
  cases hup : db.up
  · simp [dbQuery, hup]
  · have hfun : selected db.collation c s = fun p =>
        ((decide (c = "") || decide (p.Category = c)) &&
          (decide (s = "") || like db.collation p.Name ("%" ++ s ++ "%") ||
            like db.collation p.Description ("%" ++ s ++ "%") ||
            like db.collation p.Brand ("%" ++ s ++ "%"))) :=
      funext (selected_eq db.collation c s)
    rw [hfun]
    by_cases hc : c = "" <;> by_cases hs : s = "" <;>
      simp [dbQuery, hup, hc, hs, parseStatement_fixed]

theorem listProductsHandler_up (db : DB) (c s : String) (hup : db.up = true) :
    listProductsHandler db c s =
      writeJSON 200 (.products ((db.products.filter (selected db.collation c s)).take 50)) := by
  simp [listProductsHandler, dbQuery_built, hup]

theorem listProductsHandler_down (db : DB) (c s : String) (hup : db.up = false) :
    listProductsHandler db c s = writeJSON 500 (.message [("error", "DB error")]) := by
  simp [listProductsHandler, dbQuery_built, hup]


theorem anySuffix_iff (f : List Char → Bool) (t : List Char) :
    anySuffix f t = true ↔ ∃ pre suf, t = pre ++ suf ∧ f suf = true := by
  induction t with
  | nil =>
    simp only [anySuffix]
    constructor
    · intro h; exact ⟨[], [], rfl, h⟩
    · rintro ⟨pre, suf, h1, h2⟩
      have := List.append_eq_nil.mp h1.symm
      rw [this.2] at h2
      exact h2
  | cons c t ih =>
    simp only [anySuffix, Bool.or_eq_true, ih]
    constructor
    · rintro (h | ⟨pre, suf, h1, h2⟩)
      · exact ⟨[], c :: t, rfl, h⟩
      · exact ⟨c :: pre, suf, by rw [h1]; rfl, h2⟩
    · rintro ⟨pre, suf, h1, h2⟩
      cases pre with
      | nil => left; rw [h1]; exact h2
      | cons x xs =>
        right
        simp only [List.cons_append, List.cons.injEq] at h1
        exact ⟨xs, suf, h1.2, h2⟩

theorem likeMatch_percent (eqv : Char → Char → Bool) (ps t : List Char) :
    likeMatch eqv ('%' :: ps) t = anySuffix (likeMatch eqv ps) t := by
  cases ps <;> simp [likeMatch]

theorem likeMatch_char (eqv : Char → Char → Bool) (a : Char) (ps : List Char) (c : Char)
    (cs : List Char) (h1 : a ≠ '%') (h2 : a ≠ '_') (h3 : a ≠ '\\') :
    likeMatch eqv (a :: ps) (c :: cs) = (eqv a c && likeMatch eqv ps cs) := by
  conv_lhs => unfold likeMatch
  split
  · rename_i heq; cases heq
  · rename_i heq
    exact absurd (List.cons.inj heq).1 h3
  · rename_i heq
    obtain ⟨hp, hq⟩ := List.cons.inj heq
    subst hp hq
    have h4 : (a == '_') = false := by simpa using h2
    simp [h1, h4]

theorem likeMatch_char_nil (eqv : Char → Char → Bool) (a : Char) (ps : List Char)
    (h1 : a ≠ '%') (h3 : a ≠ '\\') : likeMatch eqv (a :: ps) [] = false := by
  conv_lhs => unfold likeMatch
  split
  · rename_i heq; cases heq
  · rename_i heq
    exact absurd (List.cons.inj heq).1 h3
  · rename_i heq
    obtain ⟨hp, hq⟩ := List.cons.inj heq
    subst hp hq
    simp [h1]

theorem anySuffix_true (f : List Char → Bool) (t : List Char) (h : f [] = true) :
    anySuffix f t = true :=
  (anySuffix_iff f t).mpr ⟨t, [], by simp, h⟩

theorem likeMatch_term (eqv : Char → Char → Bool) (s : List Char)
    (hs : ∀ c ∈ s, c ≠ '%' ∧ c ≠ '_' ∧ c ≠ '\\') :
    ∀ t : List Char, likeMatch eqv (s ++ ['%']) t = startsWith eqv s t := by
  induction s with
  | nil =>
    intro t
    rw [List.nil_append, likeMatch_percent, anySuffix_true _ t (by simp [likeMatch])]
    cases t <;> rfl
  | cons a s ih =>
    intro t
    have ha := hs a (List.mem_cons_self _ _)
    have ih := ih (fun c hc => hs c (List.mem_cons_of_mem _ hc))
    cases t with
    | nil =>
      rw [List.cons_append, likeMatch_char_nil eqv a _ ha.1 ha.2.2]
      rfl
    | cons c cs =>
      rw [List.cons_append, likeMatch_char eqv a _ c cs ha.1 ha.2.1 ha.2.2, ih cs]
      rfl

theorem noWildcard_iff (s : String) :
    noWildcard s = true ↔ ∀ c ∈ s.toList, c ≠ '%' ∧ c ≠ '_' ∧ c ≠ '\\' := by
  simp [noWildcard, and_assoc]

theorem like_occursIn (eqv : Char → Char → Bool) (s text : String) (hs : noWildcard s = true) :
    like eqv text ("%" ++ s ++ "%") = occursIn eqv s text := by
  have hp : ("%" ++ s ++ "%").toList = '%' :: (s.toList ++ ['%']) := by
    simp [String.toList]
  have hf : likeMatch eqv (s.toList ++ ['%']) = startsWith eqv s.toList :=
    funext (likeMatch_term eqv s.toList ((noWildcard_iff s).mp hs))
  simp only [like, hp, likeMatch_percent, hf, occursIn]

theorem startsWith_caseInsensitive (s : List Char) :
    ∀ t : List Char, startsWith caseInsensitive s t = true ↔
      ∃ mid post, t = mid ++ post ∧ mid.map Char.toLower = s.map Char.toLower := by
  induction s with
  | nil =>
    intro t
    simp only [startsWith, List.map_nil, List.map_eq_nil_iff, true_iff]
    exact ⟨[], t, rfl, rfl⟩
  | cons a s ih =>
    intro t
    cases t with
    | nil => simp [startsWith]
    | cons c cs =>
      simp only [startsWith, caseInsensitive, Bool.and_eq_true, beq_iff_eq, ih cs]
      constructor
      · rintro ⟨h1, mid, post, h2, h3⟩
        exact ⟨c :: mid, post, by rw [h2]; rfl, by simp [h3, h1]⟩
      · rintro ⟨mid, post, h2, h3⟩
        cases mid with
        | nil => simp at h3
        | cons x xs =>
          simp only [List.cons_append, List.cons.injEq] at h2
          simp only [List.map_cons, List.cons.injEq] at h3
          exact ⟨by rw [h2.1]; exact h3.1.symm, xs, post, h2.2, h3.2⟩

theorem occursIn_caseInsensitive (s text : String) :
    occursIn caseInsensitive s text = true ↔ containsCI s text := by
  simp only [occursIn, anySuffix_iff, startsWith_caseInsensitive, containsCI, List.IsInfix]
  constructor
  · rintro ⟨pre, suf, h1, mid, post, h2, h3⟩
    refine ⟨pre.map Char.toLower, post.map Char.toLower, ?_⟩
    rw [h1, h2, ← h3]
    simp
  · rintro ⟨a, b, h⟩
    obtain ⟨l1, post, h1, h2, h3⟩ := List.map_eq_append_iff.mp h.symm
    obtain ⟨pre, mid, h4, h5, h6⟩ := List.map_eq_append_iff.mp h2
    exact ⟨pre, mid ++ post, by rw [h1, h4, List.append_assoc], mid, post, rfl, h6⟩


/-- C1, as stated, fails: (1) the placeholder of `/products/{id}/reviews`
replaced by the empty string gives `/products//reviews`, which is not found;
(2) an earlier template that matches the path takes the request; (3) adjacent
placeholders are split greedily, not as substituted; (4) a `$` of the
template is an assertion, so the template's own text is not found; (5) a
repeated name keeps one value. -/
theorem substituted_path_counterexample :
    (render reviewsTemplate = "/products/{id}/reviews".toList ∧
      subst reviewsTemplate [[]] = "/products//reviews".toList ∧
      (addRoute [] "GET".toList "/products/{id}/reviews".toList 0).map
        (fun t => dispatch t "GET".toList "/products//reviews".toList) = some .notFound) ∧
    (registerAll [("GET".toList, "/products/{id}".toList, 1),
        ("GET".toList, "/products/{sku}".toList, 2)] []).map
      (fun t => dispatch t "GET".toList "/products/42".toList) =
        some (.handled 1 [("id".toList, "42".toList)]) ∧
    (subst [.lit '/', .ph ['a'], .ph ['b']] ["x".toList, "yz".toList] = "/xyz".toList ∧
      (addRoute [] "GET".toList "/{a}{b}".toList 0).map
        (fun t => dispatch t "GET".toList "/xyz".toList) =
          some (.handled 0 [(['a'], "xy".toList), (['b'], "z".toList)])) ∧
    (addRoute [] "GET".toList "/a$b".toList 0).map
      (fun t => dispatch t "GET".toList "/a$b".toList) = some .notFound ∧
    (addRoute [] "GET".toList "/{a}/{a}".toList 0).map
      (fun t => dispatch t "GET".toList "/x/y".toList) =
        some (.handled 0 [(['a'], ['y'])]) := by
  decide

/-- C1, amended: a template without regexp metacharacters outside its
placeholders, each placeholder followed by `/` or ending the template, is
registered by `addRoute`; for the path obtained by replacing the placeholders
by non-empty strings without `/`, and unless an earlier entry is selected by
the request, `dispatch` invokes the template's handler with a map that sends
each placeholder name to the string substituted for its last occurrence. -/
theorem dispatch_substituted_path {H : Type} (pre : List (routeEntry H)) (method : Str)
    (items : List Item) (h : H) (vals : List Str)
    (hplain : plainTemplate items = true) (hsep : separated items = true)
    (hlen : vals.length = (names items).length) (hgood : ∀ v ∈ vals, goodValue v = true)
    (hfirst : ∀ e ∈ pre, ¬ selects e method (subst items vals)) :
    ∃ t, addRoute pre method (render items) h = some t ∧
      ∀ post : List (routeEntry H), ∃ vars,
        dispatch (t ++ post) method (subst items vals) = .handled h vars ∧
        ∀ (j : Nat) (n : Str), (names items)[j]? = some n → (∀ k, j < k → (names items)[k]? ≠ some n) →
          getVar vars n = vals[j]? := by
  refine ⟨_, addRoute_render pre (method, items, h) hplain, ?_⟩
  intro post
  refine ⟨_, ?_, fun j n hj hl => getVar_zip_last (names items) vals hlen j n hj hl⟩
  rw [List.append_assoc, dispatch_skip pre _ method _ hfirst]
  exact dispatch_hit (templateEntry (method, items, h)) post method _ _ _ rfl
    (find_template_separated items vals hsep hlen hgood)
    (fillVars_template items _ vals hlen)

theorem dispatch_substituted_path_witness :
    ∃ t, addRoute ([] : List (routeEntry Handler)) "GET".toList (render productTemplate)
        .getProductHandler = some t ∧
      ∀ post : List (routeEntry Handler), ∃ vars,
        dispatch (t ++ post) "GET".toList (subst productTemplate ["42".toList]) =
          .handled .getProductHandler vars ∧
        ∀ (j : Nat) (n : Str), (names productTemplate)[j]? = some n →
          (∀ k, j < k → (names productTemplate)[k]? ≠ some n) →
          getVar vars n = ["42".toList][j]? :=
  dispatch_substituted_path [] "GET".toList productTemplate .getProductHandler ["42".toList]
    (by decide) (by decide) (by decide) (by decide) (by simp)

/-- C2, as stated, fails: the template `/a|/b` compiles to `^/a|/b$`, whose
first alternative is not anchored at the end; the request for `/a/zzz` is
handled although the match, `/a`, is a prefix of the path. -/
theorem anchored_match_counterexample :
    (addRoute [] "GET".toList "/a|/b".toList 0).map
      (fun t => dispatch t "GET".toList "/a/zzz".toList) = some (.handled 0 []) ∧
    (compile "^/a|/b$".toList).bind
      (fun re => findStringSubmatch re "/a/zzz".toList) = some ["/a".toList] := by
  decide

/-- C2, amended: for every route table registered from templates without
regexp metacharacters outside their placeholders, every method and path,
`dispatch` gives not-found exactly when no entry has the request's method and
a template of which the whole path is an instance, and otherwise invokes
exactly the handler of the first such entry in registration order; the
compiled pattern of an entry finds a match exactly when the whole path is an
instance of its template, and the matched text is then the whole path. -/
theorem dispatch_first_match {H : Type} (routes : List (Str × List Item × H))
    (hplain : ∀ r ∈ routes, plainTemplate r.2.1 = true) :
    ∃ t, registerAll (routes.map renderRoute) [] = some t ∧
      ∀ method path,
        (dispatch t method path = .notFound ↔
          ∀ r ∈ routes, ¬ (r.1 = method ∧ isInstance r.2.1 path)) ∧
        ((∃ r ∈ routes, r.1 = method ∧ isInstance r.2.1 path) →
          ∃ pre r post vars, routes = pre ++ r :: post ∧ r.1 = method ∧
            isInstance r.2.1 path ∧
            (∀ x ∈ pre, ¬ (x.1 = method ∧ isInstance x.2.1 path)) ∧
            dispatch t method path = .handled r.2.2 vars) ∧
        t.length = routes.length ∧
        ∀ (i : Nat) (e : routeEntry H) (r : Str × List Item × H),
          t[i]? = some e → routes[i]? = some r →
          e.handler = r.2.2 ∧
          (selects e method path ↔ (r.1 = method ∧ isInstance r.2.1 path)) ∧
          ∀ m, findStringSubmatch e.pattern path = some m → m.head? = some path := by
  refine ⟨_, registerAll_render routes [] hplain, ?_⟩
  intro method path
  simp only [List.nil_append]
  have hentries : ∀ (i : Nat) (e : routeEntry H) (r : Str × List Item × H),
      (routes.map templateEntry)[i]? = some e → routes[i]? = some r →
      e.handler = r.2.2 ∧
      (selects e method path ↔ (r.1 = method ∧ isInstance r.2.1 path)) ∧
      ∀ m, findStringSubmatch e.pattern path = some m → m.head? = some path := by
    intro i e r he hr
    rw [List.getElem?_map, hr] at he
    simp only [Option.map_some', Option.some.injEq] at he
    subst he
    refine ⟨rfl, selects_templateEntry r method path, ?_⟩
    intro m hm
    obtain ⟨caps, h1, _⟩ := find_template_some r.2.1 path m hm
    rw [h1]
    rfl
  rcases dispatch_routes routes method path with
    ⟨h1, h2⟩ | ⟨pre, r, post, caps, h1, h2, h3, h4, h5, h6, h7, h8⟩
  · refine ⟨⟨fun _ => h2, fun _ => h1⟩, ?_, by simp, hentries⟩
    rintro ⟨r, hr, hsel⟩
    exact absurd hsel (h2 r hr)
  · have hinst : isInstance r.2.1 path := ⟨caps, h5, h6, h7⟩
    refine ⟨⟨?_, ?_⟩, fun _ => ⟨pre, r, post, _, h1, h3, hinst, h2, h8⟩, by simp, hentries⟩
    · intro hnf
      rw [h8] at hnf
      cases hnf
    · intro hall
      exact absurd ⟨h3, hinst⟩ (hall r (by simp [h1]))

theorem dispatch_first_match_witness :
    ∃ t, registerAll
        ([("GET".toList, litItems "/products", Handler.listProductsHandler),
          ("GET".toList, productTemplate, Handler.getProductHandler)].map renderRoute) [] =
        some t ∧
      ∀ method path,
        (dispatch t method path = .notFound ↔
          ∀ r ∈ [("GET".toList, litItems "/products", Handler.listProductsHandler),
              ("GET".toList, productTemplate, Handler.getProductHandler)],
            ¬ (r.1 = method ∧ isInstance r.2.1 path)) ∧
        ((∃ r ∈ [("GET".toList, litItems "/products", Handler.listProductsHandler),
              ("GET".toList, productTemplate, Handler.getProductHandler)],
            r.1 = method ∧ isInstance r.2.1 path) →
          ∃ pre r post vars,
            [("GET".toList, litItems "/products", Handler.listProductsHandler),
              ("GET".toList, productTemplate, Handler.getProductHandler)] = pre ++ r :: post ∧
            r.1 = method ∧ isInstance r.2.1 path ∧
            (∀ x ∈ pre, ¬ (x.1 = method ∧ isInstance x.2.1 path)) ∧
            dispatch t method path = .handled r.2.2 vars) ∧
        t.length =
          [("GET".toList, litItems "/products", Handler.listProductsHandler),
            ("GET".toList, productTemplate, Handler.getProductHandler)].length ∧
        ∀ (i : Nat) (e : routeEntry Handler) (r : Str × List Item × Handler),
          t[i]? = some e →
          [("GET".toList, litItems "/products", Handler.listProductsHandler),
            ("GET".toList, productTemplate, Handler.getProductHandler)][i]? = some r →
          e.handler = r.2.2 ∧
          (selects e method path ↔ (r.1 = method ∧ isInstance r.2.1 path)) ∧
          ∀ m, findStringSubmatch e.pattern path = some m → m.head? = some path :=
  dispatch_first_match _ (by decide)


/-- C3, as stated, fails: the `.` of the template `/robots.txt` is compiled as
the regexp wildcard, so the path `/robots-txt`, which differs from the only
template in a literal segment, is handled. -/
theorem literal_segment_counterexample :
    segments "/robots.txt".toList = [[], "robots.txt".toList] ∧
    segments "/robots-txt".toList = [[], "robots-txt".toList] ∧
    isLiteralSegment "robots.txt".toList = true ∧
    pathDiffers "/robots.txt".toList "/robots-txt".toList = true ∧
    (addRoute [] "GET".toList "/robots.txt".toList 0).map
      (fun t => dispatch t "GET".toList "/robots-txt".toList) = some (.handled 0 []) := by
  decide

/-- C3, amended: for every route table registered from templates without regexp
metacharacters outside their placeholders and every path, if the path differs
from every template in its number of segments or in a literal segment,
`dispatch` gives not-found; whenever it does not give not-found, the path is
an instance of a registered template: every placeholder stands for one or more
characters other than `/` and the literal text is identical. -/
theorem dispatch_differs_notFound {H : Type} (routes : List (Str × List Item × H))
    (hplain : ∀ r ∈ routes, plainTemplate r.2.1 = true) :
    ∃ t, registerAll (routes.map renderRoute) [] = some t ∧
      ∀ method path,
        ((∀ r ∈ routes, pathDiffers (render r.2.1) path = true) →
          dispatch t method path = .notFound) ∧
        (dispatch t method path ≠ .notFound →
          ∃ r ∈ routes, r.1 = method ∧ isInstance r.2.1 path) := by
  refine ⟨_, registerAll_render routes [] hplain, ?_⟩
  intro method path
  simp only [List.nil_append]
  rcases dispatch_routes routes method path with
    ⟨h1, _⟩ | ⟨pre, r, post, caps, h1, _, h3, _, h5, h6, h7, _⟩
  · exact ⟨fun _ => h1, fun hne => absurd h1 hne⟩
  · have hmem : r ∈ routes := by simp [h1]
    have hinst : isInstance r.2.1 path := ⟨caps, h5, h6, h7⟩
    refine ⟨?_, fun _ => ⟨r, hmem, h3, hinst⟩⟩
    intro hall
    have := pathDiffers_instance r.2.1 (hplain r hmem) path hinst
    rw [hall r hmem] at this
    cases this

theorem dispatch_differs_notFound_witness :
    ∃ t, registerAll
        ([("GET".toList, productTemplate, Handler.getProductHandler)].map renderRoute) [] =
        some t ∧
      ∀ method path,
        ((∀ r ∈ [("GET".toList, productTemplate, Handler.getProductHandler)],
            pathDiffers (render r.2.1) path = true) →
          dispatch t method path = .notFound) ∧
        (dispatch t method path ≠ .notFound →
          ∃ r ∈ [("GET".toList, productTemplate, Handler.getProductHandler)],
            r.1 = method ∧ isInstance r.2.1 path) :=
  dispatch_differs_notFound _ (by decide)

/-- C8, as stated, fails: `/a//` is handed to dispatch as `/a`; with a single
trailing `/` removed it would be `/a/`. -/
theorem single_slash_counterexample :
    normalizePath "/a//".toList = "/a".toList ∧
    specNormalizePath "/a//".toList = "/a/".toList ∧
    normalizePath "/a//".toList ≠ specNormalizePath "/a//".toList := by
  decide

/-- C8, amended: the path handed to dispatch is the request path with all its
trailing `/` removed (the removal of a single `/` when the path ends in at
most one), an empty result being replaced by `/`; dispatch itself does not
normalize: on the routes of `main` it does not find `/products/`. -/
theorem normalizePath_trims_all :
    (∀ (H : Type) (t : List (routeEntry H)) (method path : Str),
      serve t method path = dispatch t method (normalizePath path)) ∧
    (∀ (body : Str) (k : Nat), body.getLast? ≠ some '/' →
      normalizePath (body ++ List.replicate k '/') = if body = [] then ['/'] else body) ∧
    (∀ path : Str, ∃ (body : Str) (k : Nat),
      body.getLast? ≠ some '/' ∧ path = body ++ List.replicate k '/') ∧
    (∀ body : Str, body.getLast? ≠ some '/' →
      normalizePath body = specNormalizePath body ∧
      normalizePath (body ++ ['/']) = specNormalizePath (body ++ ['/'])) ∧
    mainRoutes.map (fun t =>
        (dispatch t "GET".toList "/products/".toList,
         dispatch t "GET".toList "/products".toList,
         serve t "GET".toList "/products/".toList)) =
      some (.notFound, .handled .listProductsHandler [], .handled .listProductsHandler []) := by
  refine ⟨fun _ _ _ _ => rfl, normalizePath_slashes, path_decompose, ?_, by decide⟩
  intro body h
  have h0 := normalizePath_slashes body 0 h
  have h1 := normalizePath_slashes body 1 h
  simp only [List.replicate_zero, List.append_nil] at h0
  simp only [List.replicate_one] at h1
  refine ⟨?_, ?_⟩
  · rw [h0]; simp [specNormalizePath, h]
  · rw [h1]; simp [specNormalizePath]

theorem normalizePath_trims_all_witness :
    normalizePath ("/a".toList ++ List.replicate 2 '/') =
      if "/a".toList = [] then ['/'] else "/a".toList :=
  normalizePath_trims_all.2.1 "/a".toList 2 (by decide)

/-- C9, as stated, fails: in the template `/([^/]+)/{a}/{a}` the group written
in the template comes first, so for `/x/y/z` the submatches are `x`, `y`, `z`
and the map gets `m[2]`, `y`, although the last `{a}` captured `z`. -/
theorem last_occurrence_counterexample :
    (replacePlaceholders "/([^/]+)/{a}/{a}".toList).2 = [['a'], ['a']] ∧
    (compile "^/([^/]+)/([^/]+)/([^/]+)$".toList).bind
      (fun re => findStringSubmatch re "/x/y/z".toList) =
        some ["/x/y/z".toList, ['x'], ['y'], ['z']] ∧
    (addRoute [] "GET".toList "/([^/]+)/{a}/{a}".toList 0).map
      (fun t => dispatch t "GET".toList "/x/y/z".toList) =
        some (.handled 0 [(['a'], ['y'])]) := by
  decide

/-- C9, amended: for every template without regexp metacharacters outside its
placeholders, `addRoute` records the placeholder names in left-to-right order,
and for every path that matches, the map `dispatch` passes to the handler has
exactly one entry for each name, whose value is the text captured by the last
occurrence of that placeholder. -/
theorem duplicate_placeholder_last_wins {H : Type} (method : Str) (items : List Item) (h : H)
    (hplain : plainTemplate items = true) :
    ∃ e, addRoute [] method (render items) h = some [e] ∧ e.params = names items ∧
      ∀ path, isInstance items path →
        ∃ caps vars, findStringSubmatch e.pattern path = some (path :: caps) ∧
          path = subst items caps ∧ caps.length = (names items).length ∧
          dispatch [e] method path = .handled h vars ∧
          ∀ (j : Nat) (n : Str), (names items)[j]? = some n →
            (∀ k, j < k → (names items)[k]? ≠ some n) →
            getVar vars n = caps[j]? ∧ entriesFor vars n = 1 := by
  refine ⟨templateEntry (method, items, h), ?_, rfl, ?_⟩
  · simpa using addRoute_render [] (method, items, h) hplain
  · intro path hinst
    have hsel : (findStringSubmatch (templateEntry (method, items, h)).pattern path).isSome =
        true := (find_template_isSome_iff items path).mpr hinst
    obtain ⟨m, hm⟩ := Option.isSome_iff_exists.mp hsel
    obtain ⟨caps, h1, h2, _, h4⟩ := find_template_some items path m hm
    subst h1
    refine ⟨caps, _, hm, h4, h2,
      dispatch_hit (templateEntry (method, items, h)) [] method path _ _ rfl hm
        (fillVars_template items path caps h2), ?_⟩
    intro j n hj hl
    have hget := getVar_zip_last (names items) caps h2 j n hj hl
    refine ⟨hget, ?_⟩
    have hjlt : j < (names items).length := by
      by_contra hge
      rw [List.getElem?_eq_none (by omega)] at hj
      cases hj
    have hc : caps[j]? = some (caps.get ⟨j, by omega⟩) := List.getElem?_eq_getElem (by omega)
    rw [hc] at hget
    exact entriesFor_of_getVar _ n _ (nodup_foldl_setVar _ [] List.nodup_nil) hget

theorem duplicate_placeholder_last_wins_witness :
    ∃ e, addRoute [] "GET".toList (render [.lit '/', .ph ['a'], .lit '/', .ph ['a']]) 0 =
        some [e] ∧
      e.params = names [.lit '/', .ph ['a'], .lit '/', .ph ['a']] ∧
      ∀ path, isInstance [.lit '/', .ph ['a'], .lit '/', .ph ['a']] path →
        ∃ caps vars, findStringSubmatch e.pattern path = some (path :: caps) ∧
          path = subst [.lit '/', .ph ['a'], .lit '/', .ph ['a']] caps ∧
          caps.length = (names [.lit '/', .ph ['a'], .lit '/', .ph ['a']]).length ∧
          dispatch [e] "GET".toList path = .handled 0 vars ∧
          ∀ (j : Nat) (n : Str),
            (names [.lit '/', .ph ['a'], .lit '/', .ph ['a']])[j]? = some n →
            (∀ k, j < k → (names [.lit '/', .ph ['a'], .lit '/', .ph ['a']])[k]? ≠ some n) →
            getVar vars n = caps[j]? ∧ entriesFor vars n = 1 :=
  duplicate_placeholder_last_wins "GET".toList [.lit '/', .ph ['a'], .lit '/', .ph ['a']] 0
    (by decide)


/-- C4: two listing requests that agree on which of the two filters are present
get the same query text, one of four fixed texts chosen by the presence of
the filters alone; the filter values are the bound arguments handed to the
storage with that text. -/
theorem query_text_independent (db : DB) (c1 s1 c2 s2 : String)
    (hc : c1 = "" ↔ c2 = "") (hs : s1 = "" ↔ s2 = "") :
    (buildListQuery c1 s1).1 = (buildListQuery c2 s2).1 ∧
    (buildListQuery c1 s1).1 = fixedQueryText (c1 != "") (s1 != "") ∧
    (buildListQuery c1 s1).2 =
      (if c1 ≠ "" then [c1] else []) ++
        (if s1 ≠ "" then ["%" ++ s1 ++ "%", "%" ++ s1 ++ "%", "%" ++ s1 ++ "%"] else []) ∧
    listProductsHandler db c1 s1 =
      match dbQuery db (fixedQueryText (c1 != "") (s1 != "")) (buildListQuery c1 s1).2 with
      | .error _ => writeJSON 500 (.message [("error", "DB error")])
      | .ok rows => writeJSON 200 (.products rows) := by
  refine ⟨?_, buildListQuery_text c1 s1, buildListQuery_args c1 s1, ?_⟩
  · rw [buildListQuery_text, buildListQuery_text, bne_empty, bne_empty, bne_empty, bne_empty]
    have h1 : decide (c1 ≠ "") = decide (c2 ≠ "") := by
      by_cases h : c1 = "" <;> simp [h, hc.mp, ← hc]
    have h2 : decide (s1 ≠ "") = decide (s2 ≠ "") := by
      by_cases h : s1 = "" <;> simp [h, hs.mp, ← hs]
    rw [h1, h2]
  · simp only [listProductsHandler, buildListQuery_text]

theorem query_text_independent_witness :
    (buildListQuery "Amplifiers" "strat").1 = (buildListQuery "x' OR '1'='1" "%' --").1 ∧
    (buildListQuery "Amplifiers" "strat").1 = fixedQueryText ("Amplifiers" != "") ("strat" != "") ∧
    (buildListQuery "Amplifiers" "strat").2 =
      (if "Amplifiers" ≠ "" then ["Amplifiers"] else []) ++
        (if "strat" ≠ "" then ["%" ++ "strat" ++ "%", "%" ++ "strat" ++ "%",
          "%" ++ "strat" ++ "%"] else []) ∧
    listProductsHandler ⟨[], true, caseInsensitive⟩ "Amplifiers" "strat" =
      match dbQuery ⟨[], true, caseInsensitive⟩ (fixedQueryText ("Amplifiers" != "") ("strat" != ""))
        (buildListQuery "Amplifiers" "strat").2 with
      | .error _ => writeJSON 500 (.message [("error", "DB error")])
      | .ok rows => writeJSON 200 (.products rows) :=
  query_text_independent ⟨[], true, caseInsensitive⟩ "Amplifiers" "strat" "x' OR '1'='1" "%' --"
    (by decide) (by decide)

/-- C5: the query text always ends with ` LIMIT 50`, a listing never returns
more than 50 products, and with no filters, an answering storage and at least
50 rows it returns exactly the first 50 rows of the table. -/
theorem listing_capped (db : DB) (c s : String) :
    (∃ pre, (buildListQuery c s).1 = pre ++ " LIMIT 50") ∧
    (∀ ps, (listProductsHandler db c s).body = .products ps → ps.length ≤ 50) ∧
    (db.up = true → 50 ≤ db.products.length →
      listProductsHandler db "" "" = writeJSON 200 (.products (db.products.take 50)) ∧
      (db.products.take 50).length = 50) := by
  refine ⟨?_, ?_, ?_⟩
  · by_cases hc : c = "" <;> by_cases hs : s = "" <;>
      simp only [buildListQuery, hc, hs, ne_eq, not_true_eq_false, not_false_eq_true, if_true,
        if_false] <;> exact ⟨_, rfl⟩
  · intro ps hps
    cases hup : db.up
    · rw [listProductsHandler_down db c s hup] at hps
      simp [writeJSON] at hps
    · rw [listProductsHandler_up db c s hup] at hps
      simp only [writeJSON, Body.products.injEq] at hps
      rw [← hps]
      exact List.length_take_le _ _
  · intro hup hlen
    refine ⟨?_, by simp [List.length_take, hlen]⟩
    rw [listProductsHandler_up db "" "" hup]
    have : selected db.collation "" "" = fun _ => true := by
      funext p; simp [selected]
    rw [this, List.filter_true]

theorem listing_capped_witness :
    listProductsHandler ⟨List.replicate 60 stratocaster, true, caseInsensitive⟩ "" "" =
        writeJSON 200 (.products ((List.replicate 60 stratocaster).take 50)) ∧
      ((List.replicate 60 stratocaster).take 50).length = 50 :=
  (listing_capped ⟨List.replicate 60 stratocaster, true, caseInsensitive⟩ "" "").2.2 rfl
    (by simp)


set_option maxRecDepth 100000 in
/-- C6, as stated, fails: (1) the search term `_` is bound as the pattern `%_%`,
in which `_` is a wildcard, and the listing returns a row in whose name,
description and brand no `_` appears; (2) the search term `\` is bound as
`%\%`, in which the backslash escapes the second `%`, and the listing returns
a row whose name ends in `%` and has no backslash; (3) under a collation that
equates `é` with `e` the search term `é` returns a row without `é`. -/
theorem search_wildcard_counterexample :
    ((buildListQuery "" "_").2 = ["%_%", "%_%", "%_%"] ∧
      like caseInsensitive "Fender" "%_%" = true ∧
      ¬ containsCI "_" stratocaster.Name ∧ ¬ containsCI "_" stratocaster.Description ∧
      ¬ containsCI "_" stratocaster.Brand ∧
      listedNames (listProductsHandler ⟨[stratocaster], true, caseInsensitive⟩ "" "_") =
        ["Fender Stratocaster Player"]) ∧
    ((buildListQuery "" "\\").2 = ["%\\%", "%\\%", "%\\%"] ∧
      like caseInsensitive "Cotton 100%" "%\\%" = true ∧
      ¬ containsCI "\\" strap.Name ∧ ¬ containsCI "\\" strap.Description ∧
      ¬ containsCI "\\" strap.Brand ∧
      listedNames (listProductsHandler ⟨[strap], true, caseInsensitive⟩ "" "\\") =
        ["Cotton 100%"]) ∧
    (like accentInsensitive "Fender" "%é%" = true ∧
      ¬ containsCI "é" stratocaster.Name ∧ ¬ containsCI "é" stratocaster.Description ∧
      ¬ containsCI "é" stratocaster.Brand ∧
      listedNames (listProductsHandler ⟨[stratocaster], true, accentInsensitive⟩ "" "é") =
        ["Fender Stratocaster Player"]) := by
  decide

/-- C6, amended: for every non-empty search term without `%`, `_` and the escape
character `\`, the pattern bound to each of the three `LIKE` predicates is the
term between two `%`; that pattern selects exactly the texts in which the
term appears as a substring, the characters compared by the collation of the
storage, and the listing returns only rows in which the term so appears in
the name, the description or the brand; when the collation compares exactly
up to case, that is the case-insensitive appearance of the term. -/
theorem search_selects_substring (db : DB) (c s : String) (hne : s ≠ "")
    (hw : noWildcard s = true) :
    (buildListQuery c s).2 =
      (if c ≠ "" then [c] else []) ++ ["%" ++ s ++ "%", "%" ++ s ++ "%", "%" ++ s ++ "%"] ∧
    (∀ text, like db.collation text ("%" ++ s ++ "%") = occursIn db.collation s text) ∧
    (∀ ps, (listProductsHandler db c s).body = .products ps → ∀ p ∈ ps,
      occursIn db.collation s p.Name = true ∨ occursIn db.collation s p.Description = true ∨
        occursIn db.collation s p.Brand = true) ∧
    (db.collation = caseInsensitive →
      (∀ text, like db.collation text ("%" ++ s ++ "%") = true ↔ containsCI s text) ∧
      ∀ ps, (listProductsHandler db c s).body = .products ps → ∀ p ∈ ps,
        containsCI s p.Name ∨ containsCI s p.Description ∨ containsCI s p.Brand) := by
  have hrows : ∀ ps, (listProductsHandler db c s).body = .products ps → ∀ p ∈ ps,
      occursIn db.collation s p.Name = true ∨ occursIn db.collation s p.Description = true ∨
        occursIn db.collation s p.Brand = true := by
    intro ps hps p hp
    cases hup : db.up
    · rw [listProductsHandler_down db c s hup] at hps
      simp [writeJSON] at hps
    · rw [listProductsHandler_up db c s hup] at hps
      simp only [writeJSON, Body.products.injEq] at hps
      rw [← hps] at hp
      have hsel := (List.mem_filter.mp (List.mem_of_mem_take hp)).2
      rw [selected_eq] at hsel
      simp only [hne, decide_False, Bool.false_or, Bool.and_eq_true, Bool.or_eq_true,
        like_occursIn db.collation s _ hw] at hsel
      rcases hsel.2 with (h | h) | h
      · exact Or.inl h
      · exact Or.inr (Or.inl h)
      · exact Or.inr (Or.inr h)
  refine ⟨by simp [buildListQuery_args, hne],
    fun text => like_occursIn db.collation s text hw, hrows, ?_⟩
  intro hcoll
  refine ⟨fun text => ?_, fun ps hps p hp => ?_⟩
  · rw [like_occursIn db.collation s text hw, hcoll]
    exact occursIn_caseInsensitive s text
  · have := hrows ps hps p hp
    rw [hcoll] at this
    simpa only [occursIn_caseInsensitive] using this

theorem search_selects_substring_witness :
    (buildListQuery "" "strat").2 =
      (if ("" : String) ≠ "" then [""] else []) ++
        ["%" ++ "strat" ++ "%", "%" ++ "strat" ++ "%", "%" ++ "strat" ++ "%"] ∧
    (∀ text, like caseInsensitive text ("%" ++ "strat" ++ "%") =
      occursIn caseInsensitive "strat" text) ∧
    (∀ ps, (listProductsHandler ⟨[stratocaster], true, caseInsensitive⟩ "" "strat").body =
        .products ps → ∀ p ∈ ps,
      occursIn caseInsensitive "strat" p.Name = true ∨
        occursIn caseInsensitive "strat" p.Description = true ∨
        occursIn caseInsensitive "strat" p.Brand = true) ∧
    (caseInsensitive = caseInsensitive →
      (∀ text, like caseInsensitive text ("%" ++ "strat" ++ "%") = true ↔
        containsCI "strat" text) ∧
      ∀ ps, (listProductsHandler ⟨[stratocaster], true, caseInsensitive⟩ "" "strat").body =
          .products ps → ∀ p ∈ ps,
        containsCI "strat" p.Name ∨ containsCI "strat" p.Description ∨
          containsCI "strat" p.Brand) :=
  search_selects_substring ⟨[stratocaster], true, caseInsensitive⟩ "" "strat" (by decide)
    (by decide)

/-- C7: `getProductHandler` answers 200 with the record exactly when the lookup
gives a row, 404 with `Not found` exactly when the lookup reports
`sql.ErrNoRows`, and 500 with `DB error` exactly on every other error. -/
theorem getProduct_outcomes (queryRow : String → String → Except DBError (Product × String))
    (vars : Vars) :
    (∀ p ca, queryRow selectProduct (String.mk ((getVar vars "id".toList).getD [])) = .ok (p, ca) →
      getProductHandler queryRow vars = writeJSON 200 (.product { p with CreatedAt := ca })) ∧
    (queryRow selectProduct (String.mk ((getVar vars "id".toList).getD [])) = .error .errNoRows →
      getProductHandler queryRow vars = writeJSON 404 (.message [("error", "Not found")])) ∧
    (∀ msg, queryRow selectProduct (String.mk ((getVar vars "id".toList).getD [])) =
        .error (.other msg) →
      getProductHandler queryRow vars = writeJSON 500 (.message [("error", "DB error")])) ∧
    ((getProductHandler queryRow vars).status = 200 ↔
      ∃ p ca, queryRow selectProduct (String.mk ((getVar vars "id".toList).getD [])) =
        .ok (p, ca)) ∧
    ((getProductHandler queryRow vars).status = 404 ↔
      queryRow selectProduct (String.mk ((getVar vars "id".toList).getD [])) =
        .error .errNoRows) ∧
    ((getProductHandler queryRow vars).status = 500 ↔
      ∃ msg, queryRow selectProduct (String.mk ((getVar vars "id".toList).getD [])) =
        .error (.other msg)) := by
  unfold getProductHandler
  cases h : queryRow selectProduct (String.mk ((getVar vars "id".toList).getD [])) with
  | error e => cases e <;> simp [writeJSON]
  | ok r =>
    obtain ⟨p, ca⟩ := r
    simp [writeJSON]

theorem getProduct_outcomes_witness :
    getProductHandler (fun _ _ => .error .errNoRows) [("id".toList, "42".toList)] =
      writeJSON 404 (.message [("error", "Not found")]) :=
  (getProduct_outcomes (fun _ _ => .error .errNoRows) [("id".toList, "42".toList)]).2.1 rfl

end Catalog
